import Mathlib

/-!
Verification of the structural diff and change-classification engine of the
API-specification monitor (src/diff_detector.py, src/main.py,
src/api_fetcher.py) against its natural-language specification.

The embedding models:
* `Value` — the schema-less JSON-like document tree (`SpecDocument`);
* `deepDiffV` — the generic order-independent tree diff consumed by
  `detect_changes` (the behaviour of `DeepDiff(prev, cur, ignore_order=True)`
  restricted to the output categories the detector reads:
  `dictionary_item_added`, `dictionary_item_removed`, `values_changed`;
  `type_changes` and the iterable categories are carried but never read).
  Diff locations are rendered to Python-repr style strings
  (`root['paths']['/users']['get']`) exactly as the detector consumes them;
* the string-splitting classifier of `APISpecDiffDetector` translated
  function by function;
* the snapshot-persistence step of `APISpecMonitor.check_for_changes`.

String literals write the ASCII apostrophe as the escape `\x27`.
-/

/-- Schema-less document tree: mappings, sequences and scalars
(JSON-compatible, as fetched by `api_fetcher` and compared by the
detector). -/
inductive Value : Type where
  | str (s : String)
  | int (n : Int)
  | bool (b : Bool)
  | null
  | dict (entries : List (String × Value))
  | list (elems : List Value)

mutual

/-- Decidable equality on documents (nested inductive, so `deriving` is
not available; written by structural recursion). -/
def decEqV : (a b : Value) → Decidable (a = b)
  | .str a, .str b =>
    if h : a = b then .isTrue (by rw [h]) else .isFalse (fun hh => h (by injection hh))
  | .int a, .int b =>
    if h : a = b then .isTrue (by rw [h]) else .isFalse (fun hh => h (by injection hh))
  | .bool a, .bool b =>
    if h : a = b then .isTrue (by rw [h]) else .isFalse (fun hh => h (by injection hh))
  | .null, .null => .isTrue rfl
  | .dict a, .dict b =>
    match decEqEntries a b with
    | .isTrue h => .isTrue (by rw [h])
    | .isFalse h => .isFalse (fun hh => h (by injection hh))
  | .list a, .list b =>
    match decEqElems a b with
    | .isTrue h => .isTrue (by rw [h])
    | .isFalse h => .isFalse (fun hh => h (by injection hh))
  | .str _, .int _ => .isFalse (fun h => Value.noConfusion h)
  | .str _, .bool _ => .isFalse (fun h => Value.noConfusion h)
  | .str _, .null => .isFalse (fun h => Value.noConfusion h)
  | .str _, .dict _ => .isFalse (fun h => Value.noConfusion h)
  | .str _, .list _ => .isFalse (fun h => Value.noConfusion h)
  | .int _, .str _ => .isFalse (fun h => Value.noConfusion h)
  | .int _, .bool _ => .isFalse (fun h => Value.noConfusion h)
  | .int _, .null => .isFalse (fun h => Value.noConfusion h)
  | .int _, .dict _ => .isFalse (fun h => Value.noConfusion h)
  | .int _, .list _ => .isFalse (fun h => Value.noConfusion h)
  | .bool _, .str _ => .isFalse (fun h => Value.noConfusion h)
  | .bool _, .int _ => .isFalse (fun h => Value.noConfusion h)
  | .bool _, .null => .isFalse (fun h => Value.noConfusion h)
  | .bool _, .dict _ => .isFalse (fun h => Value.noConfusion h)
  | .bool _, .list _ => .isFalse (fun h => Value.noConfusion h)
  | .null, .str _ => .isFalse (fun h => Value.noConfusion h)
  | .null, .int _ => .isFalse (fun h => Value.noConfusion h)
  | .null, .bool _ => .isFalse (fun h => Value.noConfusion h)
  | .null, .dict _ => .isFalse (fun h => Value.noConfusion h)
  | .null, .list _ => .isFalse (fun h => Value.noConfusion h)
  | .dict _, .str _ => .isFalse (fun h => Value.noConfusion h)
  | .dict _, .int _ => .isFalse (fun h => Value.noConfusion h)
  | .dict _, .bool _ => .isFalse (fun h => Value.noConfusion h)
  | .dict _, .null => .isFalse (fun h => Value.noConfusion h)
  | .dict _, .list _ => .isFalse (fun h => Value.noConfusion h)
  | .list _, .str _ => .isFalse (fun h => Value.noConfusion h)
  | .list _, .int _ => .isFalse (fun h => Value.noConfusion h)
  | .list _, .bool _ => .isFalse (fun h => Value.noConfusion h)
  | .list _, .null => .isFalse (fun h => Value.noConfusion h)
  | .list _, .dict _ => .isFalse (fun h => Value.noConfusion h)

/-- Decidable equality of dictionary entry lists. -/
def decEqEntries : (a b : List (String × Value)) → Decidable (a = b)
  | [], [] => .isTrue rfl
  | (k, v) :: rest, (k', v') :: rest' =>
    if hk : k = k' then
      match decEqV v v' with
      | .isTrue hv =>
        match decEqEntries rest rest' with
        | .isTrue hr => .isTrue (by rw [hk, hv, hr])
        | .isFalse hr => .isFalse (fun hh => hr (by injection hh))
      | .isFalse hv => .isFalse (fun hh => hv (by cases hh; rfl))
    else .isFalse (fun hh => hk (by cases hh; rfl))
  | [], _ :: _ => .isFalse (fun h => List.noConfusion h)
  | _ :: _, [] => .isFalse (fun h => List.noConfusion h)

/-- Decidable equality of element lists. -/
def decEqElems : (a b : List Value) → Decidable (a = b)
  | [], [] => .isTrue rfl
  | v :: rest, v' :: rest' =>
    match decEqV v v' with
    | .isTrue hv =>
      match decEqElems rest rest' with
      | .isTrue hr => .isTrue (by rw [hv, hr])
      | .isFalse hr => .isFalse (fun hh => hr (by injection hh))
    | .isFalse hv => .isFalse (fun hh => hv (by injection hh))
  | [], _ :: _ => .isFalse (fun h => List.noConfusion h)
  | _ :: _, [] => .isFalse (fun h => List.noConfusion h)

end

instance : DecidableEq Value := decEqV

/-- Python truthiness of a document value (`not current_spec` checks in
`detect_changes`): empty containers, empty strings, zero, `False` and
`None` are falsy. -/
def truthyV : Value → Bool
  | .str s => s ≠ ""
  | .int n => n ≠ 0
  | .bool b => b
  | .null => false
  | .dict es => es ≠ []
  | .list xs => xs ≠ []

/-- Truthiness of an optional value (`None` is falsy). -/
def truthyO : Option Value → Bool
  | none => false
  | some v => truthyV v

/-- First-match association-list lookup (Python dict access by key; keys of
well-formed documents are unique). -/
def lookupEntry (k : String) : List (String × Value) → Option Value
  | [] => none
  | (k', v) :: rest => if k' = k then some v else lookupEntry k rest

/-- Nodup check for a key list. -/
def nodupKeys : List String → Bool
  | [] => true
  | k :: rest => (!rest.contains k) && nodupKeys rest

mutual

/-- Well-formedness of a document: every mapping in the tree has pairwise
distinct keys (always true of trees parsed from JSON, where mappings are
Python dicts). -/
def wfV : Value → Bool
  | .dict es => nodupKeys (es.map (fun e => e.1)) && wfEntries es
  | .list xs => wfElems xs
  | _ => true

/-- Well-formedness of all values of a dictionary entry list. -/
def wfEntries : List (String × Value) → Bool
  | [] => true
  | (_, v) :: rest => wfV v && wfEntries rest

/-- Well-formedness of all elements of a list. -/
def wfElems : List Value → Bool
  | [] => true
  | v :: rest => wfV v && wfElems rest

end

/-- Lexicographic order on character lists by code point (a computable
total order on strings, used only to key-sort mappings in the canonical
form). -/
def strLeList : List Char → List Char → Bool
  | [], _ => true
  | _ :: _, [] => false
  | a :: as, b :: bs =>
    if a.val.toNat = b.val.toNat then strLeList as bs
    else decide (a.val.toNat < b.val.toNat)

/-- Order of two dictionary entries by key (used to key-sort mappings in
the canonical form). -/
def entryLe (a b : String × Value) : Prop :=
  strLeList a.1.toList b.1.toList = true

instance : DecidableRel entryLe :=
  fun a b => inferInstanceAs (Decidable (strLeList a.1.toList b.1.toList = true))

mutual

/-- Canonical form of a document: every mapping's entries sorted by key,
recursively, sequences kept in order. Two values have the same canonical
form exactly when Python `==`/DeepDiff hashing treats them as equal
mappings-wise: Python dict equality (and the `ignore_order` hash the
differ matches sequence elements with) ignores key-insertion order. -/
def canonV : Value → Value
  | .dict es => .dict (List.insertionSort entryLe (canonEntries es))
  | .list xs => .list (canonElems xs)
  | v => v

/-- Canonical form of every value of a dictionary entry list. -/
def canonEntries : List (String × Value) → List (String × Value)
  | [] => []
  | (k, v) :: rest => (k, canonV v) :: canonEntries rest

/-- Canonical form of every element of a list. -/
def canonElems : List Value → List Value
  | [] => []
  | v :: rest => canonV v :: canonElems rest

end

/-- The raw diff consumed by `_categorize_changes`: the output categories of
`DeepDiff(previous, current, ignore_order=True)` that the detector reads,
with diff locations rendered as Python-repr path strings. `values_changed`
carries `(path, old_value, new_value)`. The `type_changes` and iterable
categories are produced by the differ but never read by the detector. -/
structure DiffSet where
  dictionary_item_added : List String := []
  dictionary_item_removed : List String := []
  values_changed : List (String × Value × Value) := []
  type_changes : List (String × Value × Value) := []
  iterable_item_added : List (String × Value) := []
  iterable_item_removed : List (String × Value) := []
deriving DecidableEq

/-- Concatenation of two diff sets (category-wise). -/
def DiffSet.append (a b : DiffSet) : DiffSet :=
  { dictionary_item_added := a.dictionary_item_added ++ b.dictionary_item_added
    dictionary_item_removed := a.dictionary_item_removed ++ b.dictionary_item_removed
    values_changed := a.values_changed ++ b.values_changed
    type_changes := a.type_changes ++ b.type_changes
    iterable_item_added := a.iterable_item_added ++ b.iterable_item_added
    iterable_item_removed := a.iterable_item_removed ++ b.iterable_item_removed }

/-- Renders a mapping key step of a diff location the way DeepDiff prints
it: `path['key']`. -/
def renderKey (path k : String) : String := path ++ "[\x27" ++ k ++ "\x27]"

/-- Renders a sequence index step of a diff location: `path[i]`. -/
def renderIdx (path : String) (i : Nat) : String := path ++ "[" ++ toString i ++ "]"

/-- Scalars of the same runtime type produce `values_changed`; different
types produce `type_changes` (which the detector ignores). -/
def sameKind (a b : Value) : Bool :=
  match a, b with
  | .str _, .str _ => true
  | .int _, .int _ => true
  | .bool _, .bool _ => true
  | .null, .null => true
  | _, _ => false

/-- Removes the first element of an indexed list whose value equals `p`
under order-insensitive deep equality — equality of canonical forms,
modelling the Python `==`/`ignore_order` hash comparison the differ
matches sequence elements with, under which two mappings differing only
in key-insertion order are equal (`none` when there is no such
element). -/
def eraseFirstMatch (p : Value) : List (Nat × Value) → Option (List (Nat × Value))
  | [] => none
  | (i, c) :: rest =>
    if canonV c = canonV p then some rest
    else match eraseFirstMatch p rest with
      | some rest' => some ((i, c) :: rest')
      | none => none

/-- Order-ignoring matching pass of the sequence diff: previous elements
are greedily matched against equal current elements. Returns a matched
flag per previous element and the unmatched current elements. -/
def matchPhase : List Value → List (Nat × Value) → List Bool × List (Nat × Value)
  | [], cs => ([], cs)
  | p :: ps, cs =>
    match eraseFirstMatch p cs with
    | some cs' =>
      let r := matchPhase ps cs'
      (true :: r.1, r.2)
    | none =>
      let r := matchPhase ps cs
      (false :: r.1, r.2)

/-- Pairs the unmatched previous elements, in order, with the unmatched
current elements (matched-but-internally-different elements recurse, per
the differ contract); `none` marks a previous element that was matched
exactly (or has no partner and is reported as iterable removal). -/
def assignPairs : List Bool → List (Nat × Value) → List (Option (Nat × Value))
  | [], _ => []
  | true :: flags, leftover => none :: assignPairs flags leftover
  | false :: flags, [] => none :: assignPairs flags []
  | false :: flags, c :: leftover => some c :: assignPairs flags leftover

/-- Directive per previous sequence element: skip (matched) or recurse
against the given current element at its original index. -/
def pairElems (ps cs : List Value) : List (Option (Nat × Value)) :=
  let r := matchPhase ps cs.enum
  assignPairs r.1 r.2

/-- Current elements left over after matching and pairing (reported as
`iterable_item_added`, a category the detector never reads). -/
def extraCur (ps cs : List Value) : List (Nat × Value) :=
  let r := matchPhase ps cs.enum
  r.2.drop (r.1.countP (fun f => f = false))

/-- Previous elements left unmatched and unpaired (reported as
`iterable_item_removed`, a category the detector never reads). -/
def extraPrevCount (ps cs : List Value) : Nat :=
  let r := matchPhase ps cs.enum
  (r.1.countP (fun f => f = false)) - r.2.length

mutual

/-- The generic tree diff: order-independent structural comparison of the
previous and current documents, producing the diff categories
`detect_changes` consumes, keyed by rendered path strings (model of
`DeepDiff(previous_spec, current_spec, ignore_order=True)` as used at
src/diff_detector.py line 36). Mappings are compared by key: keys only in
the current side become `dictionary_item_added` (reported at the top-most
added key, without recursing into the added value), keys only in the
previous side become `dictionary_item_removed`, common keys recurse.
Sequences are matched by value equality irrespective of position; paired
leftovers recurse. Unequal scalars of one type are `values_changed`; type
mismatches are a single `type_changes` entry, never recursed into. -/
def deepDiffV (prev : Value) (path : String) (cur : Value) : DiffSet :=
  match prev, cur with
  | .dict ps, .dict cs =>
    let addedKeys := (cs.filter (fun e => (lookupEntry e.1 ps).isNone)).map
      (fun e => renderKey path e.1)
    DiffSet.append { dictionary_item_added := addedKeys } (diffEntries ps path cs)
  | .list ps, .list cs =>
    let extras : DiffSet :=
      { iterable_item_added := (extraCur ps cs).map
          (fun ic => (renderIdx path ic.1, ic.2))
        iterable_item_removed := (List.range (extraPrevCount ps cs)).map
          (fun i => (renderIdx path i, Value.null)) }
    DiffSet.append (diffElems ps (pairElems ps cs) path) extras
  | p, c =>
    if p = c then {}
    else if sameKind p c then { values_changed := [(path, p, c)] }
    else { type_changes := [(path, p, c)] }
termination_by structural prev

/-- Mapping part of the tree diff: walks the previous entries; a key
missing from the current side is a removal, a common key recurses on the
two values. -/
def diffEntries (ps : List (String × Value)) (path : String)
    (cs : List (String × Value)) : DiffSet :=
  match ps with
  | [] => {}
  | (k, pv) :: rest =>
    let here : DiffSet :=
      match lookupEntry k cs with
      | some cv => deepDiffV pv (renderKey path k) cv
      | none => { dictionary_item_removed := [renderKey path k] }
    DiffSet.append here (diffEntries rest path cs)
termination_by structural ps

/-- Sequence part of the tree diff: recurses on the paired
(unmatched previous, unmatched current) elements. -/
def diffElems (ps : List Value) (dirs : List (Option (Nat × Value)))
    (path : String) : DiffSet :=
  match ps, dirs with
  | p :: rest, some ic :: drest =>
    DiffSet.append (deepDiffV p (renderIdx path ic.1) ic.2)
      (diffElems rest drest path)
  | _ :: rest, none :: drest => diffElems rest drest path
  | _, _ => {}
termination_by structural ps

end


/-- Fuel-driven worker for Python `str.split(sep)` over character lists;
the fuel (initialised to the length of the scanned text, which a scan
never exceeds) keeps the recursion structural. -/
def pySplitGo (sep : List Char) : Nat → List Char → List Char → List (List Char)
  | _, acc, [] => [acc.reverse]
  | 0, acc, rest => [acc.reverse ++ rest]
  | fuel+1, acc, c :: rs =>
    if sep.isPrefixOf (c :: rs) then
      acc.reverse :: pySplitGo sep fuel [] ((c :: rs).drop sep.length)
    else pySplitGo sep fuel (c :: acc) rs

/-- Python `s.split(sep)` for non-empty `sep`: left-to-right scan on
non-overlapping occurrences, keeping empty fragments (for empty `sep`
Python raises; the detector only splits on fixed non-empty separators). -/
def pySplit (s sep : String) : List String :=
  if sep.toList = [] then [s]
  else (pySplitGo sep.toList s.toList.length [] s.toList).map (fun l => ⟨l⟩)

/-- Python substring containment `needle in hay`. -/
def substrOf (needle hay : String) : Bool := decide (needle.toList <:+: hay.toList)

/-- Python `s.startswith(pre)`. -/
def pyStartswith (s pre : String) : Bool := pre.toList.isPrefixOf s.toList

/-- Python `s.strip(chars)`: removes any of the given characters from both
ends. -/
def pyStrip (s chars : String) : String :=
  let cs := chars.toList
  ⟨(((s.toList.dropWhile (cs.contains ·)).reverse.dropWhile (cs.contains ·)).reverse)⟩

/-- Python `s.upper()` (ASCII method tokens only). -/
def pyUpper (s : String) : String := ⟨s.toList.map Char.toUpper⟩

/-- Python truthiness of an optional string (`if path and method:` treats
both `None` and the empty string as falsy). -/
def truthyStrO : Option String → Bool
  | none => false
  | some s => s ≠ ""

/-- Python `==` comparison of a document scalar against a `bool` literal
(`old_value == False`; Python also equates `0 == False` and `1 == True`). -/
def pyEqBool (v : Value) (b : Bool) : Bool :=
  match v with
  | .bool b' => b' = b
  | .int n => n = (if b then 1 else 0)
  | _ => false

/-- Exceptions the classifier can raise on malformed documents; they are
caught by the `try`/`except` of `detect_changes`. -/
inductive PyErr : Type where
  | attributeError
  | typeError
deriving DecidableEq

instance {ε α : Type} [DecidableEq ε] [DecidableEq α] : DecidableEq (Except ε α)
  | .error e, .error f =>
    if h : e = f then .isTrue (by rw [h]) else .isFalse (by simp [h])
  | .ok a, .ok b =>
    if h : a = b then .isTrue (by rw [h]) else .isFalse (by simp [h])
  | .error _, .ok _ => .isFalse (by simp)
  | .ok _, .error _ => .isFalse (by simp)

/-- Python `v.get(k, dflt)`: mapping lookup with default; any non-mapping
receiver raises `AttributeError`. -/
def pyGetAttrD (v : Value) (k : String) (dflt : Value) : Except PyErr Value :=
  match v with
  | .dict es => .ok ((lookupEntry k es).getD dflt)
  | _ => .error .attributeError

/-- Python `s in v` for a string against a container: key membership for
mappings, element equality for sequences, substring for strings; any
other right operand raises `TypeError`. -/
def pyIn (s : String) (v : Value) : Except PyErr Bool :=
  match v with
  | .dict es => .ok (es.any (fun e => e.1 = s))
  | .list xs => .ok (xs.any (fun x => x = .str s))
  | .str t => .ok (substrOf s t)
  | _ => .error .typeError

/-- Python `list(set(xs))`: deduplication keeping the first occurrence of
each entry (the set's iteration order is unspecified in Python; only
membership and uniqueness of the result are relied upon). -/
def pySetList : List String → List String :=
  let rec go (seen : List String) : List String → List String
    | [] => []
    | x :: rest => if seen.contains x then go seen rest else x :: go (x :: seen) rest
  go []

/-- The eight HTTP method tokens recognised by the detector
(`self.http_methods`, src/diff_detector.py line 11). -/
def http_methods : List String :=
  ["get", "post", "put", "delete", "options", "head", "patch", "trace"]

/-- Model of `_extract_operation_info` (src/diff_detector.py lines
275-286): splits the rendered item on `']` and reads the path from
fragment 1 and the method from fragment 2; fragments are only consulted
when they contain `['/` respectively `['`. The guarded indexing can raise
no exception, so the surrounding `try` is inert. -/
def extract_operation_info (item_str : String) : Option String × Option String :=
  let parts := pySplit item_str "\x27]"
  if parts.length ≥ 3 then
    let p1 := parts.getD 1 ""
    let p2 := parts.getD 2 ""
    let path := if substrOf "[\x27/" p1 then some ((pySplit p1 "[\x27").getD 1 "") else none
    let method := if substrOf "[\x27" p2 then some ((pySplit p2 "[\x27").getD 1 "") else none
    (path, method)
  else (none, none)

/-- One step of the fragment scan of `_extract_operation_from_key`: a
fragment containing `['/` overwrites the path; otherwise a fragment
containing a closed `['{method}']` pattern overwrites the method with the
first matching token. -/
def fromKeyStep (st : Option String × Option String) (part : String) :
    Option String × Option String :=
  if substrOf "[\x27/" part then
    (some ((pySplit part "[\x27").getD 1 ""), st.2)
  else if http_methods.any (fun m => substrOf ("[\x27" ++ m ++ "\x27]") part) then
    (st.1, (http_methods.find? (fun m => substrOf ("[\x27" ++ m ++ "\x27]") part)))
  else st

/-- Model of `_extract_operation_from_key` (src/diff_detector.py lines
288-310): splits the key on `']` and scans the fragments for a path and a
closed method pattern, returning `"{METHOD} {path}"` when both are found
and truthy. (Because the fragments of a split on `']` can never contain
the closing pattern `['{m}']`, the method scan never succeeds; see
`extract_operation_from_key_eq_none`.) -/
def extract_operation_from_key (key_str : String) : Option String :=
  if substrOf "paths" key_str then
    let parts := pySplit key_str "\x27]"
    let st := parts.foldl fromKeyStep (none, none)
    if truthyStrO st.1 && truthyStrO st.2 then
      some (pyUpper ((st.2).getD "") ++ " " ++ (st.1).getD "")
    else none
  else none

/-- Model of `_extract_parameter_info` (src/diff_detector.py lines
312-322). -/
def extract_parameter_info (key_str : String) : Option String :=
  match extract_operation_from_key key_str with
  | some op => if substrOf "parameters" key_str then some (op ++ " parameter") else none
  | none => none

/-- Model of `_check_if_required_parameter` (src/diff_detector.py lines
324-334); the `current_spec` argument is accepted and ignored, as in the
source. -/
def check_if_required_parameter (item_str : String) (current_spec : Value) :
    Option String :=
  match extract_operation_from_key item_str with
  | some op => some (op ++ " new parameter")
  | none => none

/-- Model of `_extract_paths` (src/diff_detector.py lines 346-368). The
items are the rendered path strings iterated from the diff category (for
`values_changed` the iteration yields the keys); the `isinstance(item,
dict)` branch of the source is unreachable because every iterated item is
a string. -/
def extract_paths (items : List String) (keyPref : String) : List String :=
  let pre := "root[\x27" ++ keyPref ++ "\x27]"
  items.filterMap (fun item =>
    if pyStartswith item pre then
      let parts := pySplit item "]"
      if parts.length ≥ 3 then some (pyStrip (parts.getD 1 "") "[\x27") else none
    else none)

/-- Model of `_extract_components` (src/diff_detector.py lines 370-392);
`keyPref` is the dotted `components.<category>` prefix. As in
`extract_paths`, every iterated item is a string. -/
def extract_components (items : List String) (keyPref : String) : List String :=
  let pre := "root[\x27" ++ (pySplit keyPref ".").getD 0 "" ++ "\x27][\x27" ++
    (pySplit keyPref ".").getD 1 "" ++ "\x27]"
  items.filterMap (fun item =>
    if substrOf pre item then
      let parts := pySplit ((pySplit item pre).getD 1 "") "\x27"
      if parts.length ≥ 3 then some (parts.getD 1 "") else none
    else none)


/-- One category map of a change report: category name to list of
human-readable entries. A category the source never assigns (it only
assigns non-empty lists) is the empty list, which is exactly the absence
of the key in the Python dict. -/
structure CatMap where
  paths : List String := []
  operations : List String := []
  required_parameters : List String := []
  request_formats : List String := []
  response_formats : List String := []
  global_security : List String := []
  operation_security : List String := []
  security_schemes : List String := []
  schemas : List String := []
  parameters : List String := []
  responses : List String := []
  requestBodies : List String := []
  headers : List String := []
deriving DecidableEq

/-- Truthiness of one category map: the Python inner dict is truthy iff it
has a key, i.e. iff some category list is non-empty. -/
def catNonEmpty (m : CatMap) : Bool :=
  m.paths ≠ [] || m.operations ≠ [] || m.required_parameters ≠ [] ||
  m.request_formats ≠ [] || m.response_formats ≠ [] ||
  m.global_security ≠ [] || m.operation_security ≠ [] ||
  m.security_schemes ≠ [] || m.schemas ≠ [] || m.parameters ≠ [] ||
  m.responses ≠ [] || m.requestBodies ≠ [] || m.headers ≠ []

/-- The categorized change report returned by `detect_changes`: a Python
dict with exactly the keys `added`, `changed` and `removed`. -/
structure Changes where
  added : CatMap := {}
  changed : CatMap := {}
  removed : CatMap := {}
deriving DecidableEq

/-- Model of `any(changes.values())` (src/diff_detector.py line 41): the
outer dict always has its three keys, so the check is whether any inner
category dict is non-empty. -/
def anyChanges (c : Changes) : Bool :=
  catNonEmpty c.added || catNonEmpty c.changed || catNonEmpty c.removed

/-- State threaded through the `dictionary_item_added` loop of
`_process_operation_changes`: added operations, changed operations,
processed paths. -/
structure OpState where
  added_operations : List String := []
  changed_operations : List String := []
  processed_paths : List String := []
deriving DecidableEq

/-- The `dictionary_item_added` loop of `_process_operation_changes`
(src/diff_detector.py lines 107-118): an item parsing to a truthy path and
method is an added operation when the path is absent from
`previous_spec.get('paths', {})` and a changed operation otherwise; the
membership test can raise (`TypeError` on a non-container, or
`AttributeError` from `.get` on a non-mapping previous document), which
aborts the whole categorization. -/
def process_op_added (previous_spec : Value) : List String → OpState →
    Except PyErr OpState
  | [], st => .ok st
  | item :: rest, st =>
    let pm := extract_operation_info item
    if truthyStrO pm.1 && truthyStrO pm.2 then
      let path := pm.1.getD ""
      let operation := pyUpper (pm.2.getD "") ++ " " ++ path
      match pyGetAttrD previous_spec "paths" (.dict []) with
      | .error e => .error e
      | .ok prevPaths =>
        match pyIn path prevPaths with
        | .error e => .error e
        | .ok isIn =>
          let st' :=
            if !isIn then { st with added_operations := st.added_operations ++ [operation],
                                    processed_paths := st.processed_paths ++ [path] }
            else { st with changed_operations := st.changed_operations ++ [operation],
                           processed_paths := st.processed_paths ++ [path] }
          process_op_added previous_spec rest st'
    else process_op_added previous_spec rest st

/-- The `dictionary_item_removed` loop of `_process_operation_changes`
(src/diff_detector.py lines 121-125). -/
def process_op_removed (items : List String) : List String :=
  items.filterMap (fun item =>
    let pm := extract_operation_info item
    if truthyStrO pm.1 && truthyStrO pm.2 then
      some (pyUpper (pm.2.getD "") ++ " " ++ pm.1.getD "")
    else none)

/-- The `values_changed` loop of `_process_operation_changes`
(src/diff_detector.py lines 128-134): a changed key parsing to a truthy
path and method appends the operation only when it is not already
recorded and its path was processed in the added loop. -/
def process_op_changed (keys : List String) (st : OpState) : OpState :=
  match keys with
  | [] => st
  | key :: rest =>
    let pm := extract_operation_info key
    let st' :=
      if truthyStrO pm.1 && truthyStrO pm.2 then
        let path := pm.1.getD ""
        let operation := pyUpper (pm.2.getD "") ++ " " ++ path
        if !st.changed_operations.contains operation && st.processed_paths.contains path then
          { st with changed_operations := st.changed_operations ++ [operation] }
        else st
      else st
    process_op_changed rest st'

/-- Model of `_process_parameter_changes` (src/diff_detector.py lines
143-175): returns (required parameters added, required parameters
removed). A changed key containing both `required` and `parameters`
whose value flips `False`→`True` (Python `==`, so `0`/`1` also compare
equal) contributes to the added side, `True`→`False` to the removed side;
an added item containing `parameters` is checked as a new parameter. -/
def process_parameter_changes (diff : DiffSet) (current_spec : Value) :
    List String × List String :=
  let fromChanged : List (String × Value × Value) → List String × List String :=
    fun vcs => vcs.foldl (fun acc kv =>
      let key := kv.1
      if substrOf "required" key && substrOf "parameters" key then
        if pyEqBool kv.2.1 false && pyEqBool kv.2.2 true then
          match extract_parameter_info key with
          | some pi => (acc.1 ++ [pi], acc.2)
          | none => acc
        else if pyEqBool kv.2.1 true && pyEqBool kv.2.2 false then
          match extract_parameter_info key with
          | some pi => (acc.1, acc.2 ++ [pi])
          | none => acc
        else acc
      else acc) ([], [])
  let base := fromChanged diff.values_changed
  let fromAdded := diff.dictionary_item_added.filterMap (fun item =>
    if substrOf "parameters" item then check_if_required_parameter item current_spec
    else none)
  (base.1 ++ fromAdded, base.2)

/-- Model of `_process_request_response_changes` (src/diff_detector.py
lines 177-212): returns (request format changes, response format
changes), each deduplicated through `list(set(...))`. -/
def process_request_response_changes (diff : DiffSet) : List String × List String :=
  let fromChangedReq := diff.values_changed.filterMap (fun kv =>
    if substrOf "requestBody" kv.1 && (substrOf "schema" kv.1 || substrOf "content" kv.1) then
      extract_operation_from_key kv.1
    else none)
  let fromChangedResp := diff.values_changed.filterMap (fun kv =>
    if substrOf "responses" kv.1 && (substrOf "schema" kv.1 || substrOf "content" kv.1) then
      extract_operation_from_key kv.1
    else none)
  let fromAddedReq := diff.dictionary_item_added.filterMap (fun item =>
    if substrOf "requestBody" item && substrOf "content" item then
      (extract_operation_from_key item).map (· ++ " (new content type)")
    else none)
  let fromAddedResp := diff.dictionary_item_added.filterMap (fun item =>
    if !(substrOf "requestBody" item && substrOf "content" item) &&
        (substrOf "responses" item && substrOf "content" item) then
      (extract_operation_from_key item).map (· ++ " (new content type)")
    else none)
  (pySetList (fromChangedReq ++ fromAddedReq), pySetList (fromChangedResp ++ fromAddedResp))

/-- Model of `_process_security_changes` (src/diff_detector.py lines
214-245): returns (global security changes, operation security changes,
security schemes added, security schemes removed). -/
def process_security_changes (diff : DiffSet) :
    List String × List String × List String × List String :=
  let globalSec := diff.values_changed.filterMap (fun kv =>
    if kv.1 = "root[\x27security\x27]" then some "Global security requirements changed"
    else none)
  let opSec := diff.values_changed.filterMap (fun kv =>
    if substrOf "security" kv.1 && substrOf "paths" kv.1 then
      (extract_operation_from_key kv.1).map (· ++ " security changed")
    else none)
  let schemesAdded := extract_components diff.dictionary_item_added "components.securitySchemes"
  let schemesRemoved := extract_components diff.dictionary_item_removed "components.securitySchemes"
  (globalSec, opSec, schemesAdded, schemesRemoved)

/-- Model of `_categorize_changes` (src/diff_detector.py lines 52-78):
runs the six processors and assembles the report; only the operation
processor can raise, aborting the whole categorization (the exception is
caught by `detect_changes`). -/
def categorize_changes (diff : DiffSet) (previous_spec current_spec : Value) :
    Except PyErr Changes :=
  let vcKeys := diff.values_changed.map (fun kv => kv.1)
  match process_op_added previous_spec diff.dictionary_item_added {} with
  | .error e => .error e
  | .ok st0 =>
    let removedOps := process_op_removed diff.dictionary_item_removed
    let st := process_op_changed vcKeys st0
    let params := process_parameter_changes diff current_spec
    let formats := process_request_response_changes diff
    let sec := process_security_changes diff
    .ok {
      added := {
        paths := extract_paths diff.dictionary_item_added "paths"
        operations := st.added_operations
        required_parameters := params.1
        security_schemes := sec.2.2.1
        schemas := extract_components diff.dictionary_item_added "components.schemas"
        parameters := extract_components diff.dictionary_item_added "components.parameters"
        responses := extract_components diff.dictionary_item_added "components.responses"
        requestBodies := extract_components diff.dictionary_item_added "components.requestBodies"
        headers := extract_components diff.dictionary_item_added "components.headers" }
      changed := {
        paths := extract_paths vcKeys "paths"
        operations := st.changed_operations
        request_formats := formats.1
        response_formats := formats.2
        global_security := sec.1
        operation_security := sec.2.1
        schemas := extract_components vcKeys "components.schemas"
        parameters := extract_components vcKeys "components.parameters"
        responses := extract_components vcKeys "components.responses"
        requestBodies := extract_components vcKeys "components.requestBodies"
        headers := extract_components vcKeys "components.headers" }
      removed := {
        paths := extract_paths diff.dictionary_item_removed "paths"
        operations := removedOps
        required_parameters := params.2
        security_schemes := sec.2.2.2
        schemas := extract_components diff.dictionary_item_removed "components.schemas"
        parameters := extract_components diff.dictionary_item_removed "components.parameters"
        responses := extract_components diff.dictionary_item_removed "components.responses"
        requestBodies := extract_components diff.dictionary_item_removed "components.requestBodies"
        headers := extract_components diff.dictionary_item_removed "components.headers" } }

/-- Keys of a mapping value (`.keys()`); the bootstrap branch of the
source would raise `AttributeError` on a non-mapping node — it sits
outside the `try` block — so theorems touching this branch assume mapping
shape, matching the `SpecDocument` data model. -/
def dictKeys : Value → List String
  | .dict es => es.map (fun e => e.1)
  | _ => []

/-- Total variant of `.get(k, dflt)` for the bootstrap branch (see
`dictKeys` for the non-mapping caveat). -/
def dictGetD (v : Value) (k : String) (dflt : Value) : Value :=
  match v with
  | .dict es => (lookupEntry k es).getD dflt
  | _ => dflt

/-- Model of `APISpecDiffDetector.detect_changes` (src/diff_detector.py
lines 13-50). A falsy current document yields no result; a falsy or
absent previous document yields the bootstrap report (paths and security
scheme keys of the current document, nothing changed or removed);
otherwise the generic diff is categorized inside `try`/`except`: an
exception yields no result, an all-empty report yields no result, and a
populated report is returned. -/
def detect_changes (current_spec previous_spec : Option Value) : Option Changes :=
  match current_spec with
  | none => none
  | some cur =>
    if truthyV cur = false then none
    else if truthyO previous_spec = false then
      some { added := {
               paths := dictKeys (dictGetD cur "paths" (.dict []))
               security_schemes := dictKeys
                 (dictGetD (dictGetD cur "components" (.dict [])) "securitySchemes" (.dict [])) }
             changed := {}
             removed := {} }
    else
      match previous_spec with
      | none => none
      | some prev =>
        match categorize_changes (deepDiffV prev "root" cur) prev cur with
        | .error _ => none
        | .ok ch => if anyChanges ch then some ch else none

/-- Model of `diff_result.get('has_breaking_changes')` at src/main.py line
49: `detect_changes` returns a dict with exactly the keys `added`,
`changed` and `removed` (src/diff_detector.py lines 25-32 and 54-58), so
the lookup always yields `None`, which is falsy. -/
def has_breaking_changes_flag (r : Changes) : Bool := false

/-- The stored snapshots managed by `APISpecificationFetcher` (current and
previous specification slots; `None` models a missing file). -/
structure StoredSpecs where
  current : Option Value := none
  previous : Option Value := none
deriving DecidableEq

/-- Model of `APISpecificationFetcher.update_stored_specs`
(src/api_fetcher.py lines 49-65): `None` is rejected; otherwise a truthy
stored current snapshot is moved to the previous slot and the new
specification becomes current. Returns the new store and the success
flag. -/
def update_stored_specs (st : StoredSpecs) (new_spec : Option Value) :
    StoredSpecs × Bool :=
  match new_spec with
  | none => (st, false)
  | some v =>
    let st1 := if truthyO st.current then { st with previous := st.current } else st
    ({ st1 with current := some v }, true)

/-- Model of one run of `APISpecMonitor.check_for_changes` (src/main.py
lines 29-62) acting on the stored snapshots: `fetched` is the result of
`fetch_current_spec` and `notification_sent` the result of
`WebhookNotifier.send_notification` for the produced report. The stored
specifications are updated only when a report was produced and the
notification succeeded. -/
def check_for_changes (st : StoredSpecs) (fetched : Option Value)
    (notification_sent : Bool) : StoredSpecs :=
  match fetched with
  | none => st
  | some cur =>
    if truthyV cur = false then st
    else
      match detect_changes (some cur) st.current with
      | some _ => if notification_sent then (update_stored_specs st (some cur)).1 else st
      | none => st

mutual

/-- The document-equality-up-to-presentation-order relation of the
order-independence property: two documents are related when they differ
only by the insertion order of mapping entries (at any depth) or by a
permutation of the elements of a sequence (e.g. the `security`
requirement array), the permuted elements themselves allowed to differ by
mapping key-insertion order (`ValueEquivKey`). Identical subtrees are
related by reflexivity. -/
inductive ValueEquiv : Value → Value → Prop where
  | refl (v : Value) : ValueEquiv v v
  | dict {ps cs' cs : List (String × Value)} (h : EntriesEquiv ps cs')
      (hp : List.Perm cs' cs) : ValueEquiv (.dict ps) (.dict cs)
  | list {xs ys' ys : List Value} (h : ElemsEquivKey xs ys')
      (hp : List.Perm ys' ys) : ValueEquiv (.list xs) (.list ys)

/-- Aligned equivalence of dictionary entry lists: same keys in the same
positions, values related by `ValueEquiv`. -/
inductive EntriesEquiv : List (String × Value) → List (String × Value) → Prop where
  | nil : EntriesEquiv [] []
  | cons {k : String} {v v' : Value} {ps cs : List (String × Value)}
      (hv : ValueEquiv v v') (hrest : EntriesEquiv ps cs) :
      EntriesEquiv ((k, v) :: ps) ((k, v') :: cs)

/-- Key-order-only equivalence: the sub-relation whose members have equal
canonical forms — mapping entries may be permuted (with `ValueEquivKey`
values) at any depth, sequences keep their element order. The sequence
matching of the differ identifies exactly such pairs. -/
inductive ValueEquivKey : Value → Value → Prop where
  | refl (v : Value) : ValueEquivKey v v
  | dict {ps cs' cs : List (String × Value)} (h : EntriesEquivKey ps cs')
      (hp : List.Perm cs' cs) : ValueEquivKey (.dict ps) (.dict cs)
  | list {xs ys : List Value} (h : ElemsEquivKey xs ys) :
      ValueEquivKey (.list xs) (.list ys)

/-- Aligned key-order-only equivalence of dictionary entry lists. -/
inductive EntriesEquivKey : List (String × Value) → List (String × Value) → Prop where
  | nil : EntriesEquivKey [] []
  | cons {k : String} {v v' : Value} {ps cs : List (String × Value)}
      (hv : ValueEquivKey v v') (hrest : EntriesEquivKey ps cs) :
      EntriesEquivKey ((k, v) :: ps) ((k, v') :: cs)

/-- Pointwise key-order-only equivalence of sequence elements. -/
inductive ElemsEquivKey : List Value → List Value → Prop where
  | nil : ElemsEquivKey [] []
  | cons {v v' : Value} {ps cs : List Value}
      (hv : ValueEquivKey v v') (hrest : ElemsEquivKey ps cs) :
      ElemsEquivKey (v :: ps) (v' :: cs)

end

/-- Shared operation object for the concrete comparison scenarios: a
`get` operation with one successful response. -/
def opG : Value :=
  .dict [("responses", .dict [("200", .dict [("description", .str "Success")])])]

/-- Operation object for the removed `post` operation of the
endpoint-removal scenario. -/
def opP : Value :=
  .dict [("responses", .dict [("201", .dict [("description", .str "Created")])])]

/-- Previous document of the endpoint-removal scenario: `/users` with
`get` and `post`. -/
def prevRemovalDoc : Value :=
  .dict [("paths", .dict [("/users", .dict [("get", opG), ("post", opP)])])]

/-- Current document of the endpoint-removal scenario: `post` removed. -/
def curRemovalDoc : Value :=
  .dict [("paths", .dict [("/users", .dict [("get", opG)])])]

/-- The `limit` query parameter with the given `required` flag. -/
def paramLimit (req : Bool) : Value :=
  .dict [("name", .str "limit"), ("required", .bool req)]

/-- Previous document of the required-parameter-flip scenario. -/
def prevFlipDoc : Value :=
  .dict [("paths", .dict [("/users", .dict [("get",
    .dict [("parameters", .list [paramLimit false])])])])]

/-- Current document of the required-parameter-flip scenario: identical
except `required` flipped `false` → `true`. -/
def curFlipDoc : Value :=
  .dict [("paths", .dict [("/users", .dict [("get",
    .dict [("parameters", .list [paramLimit true])])])])]

/-- Previous document with a single existing path, parameterised by the
`get` operation object (used by the operation/path-addition scenarios). -/
def prevUsersDoc (x : Value) : Value :=
  .dict [("paths", .dict [("/users", .dict [("get", x)])])]

/-- Current document that adds the method `post` (object `y`) to the
existing `/users` path. -/
def curMethodAddedDoc (x y : Value) : Value :=
  .dict [("paths", .dict [("/users", .dict [("get", x), ("post", y)])])]

/-- Current document that adds the brand-new path `/products` (with a
single `get` operation `z`) next to the unchanged `/users`. -/
def curPathAddedDoc (x z : Value) : Value :=
  .dict [("paths", .dict [("/users", .dict [("get", x)]), ("/products", .dict [("get", z)])])]

/-- Previous document of the field-change scenarios: one operation with a
`summary` field. -/
def prevSummaryDoc : Value :=
  .dict [("paths", .dict [("/users", .dict [("get", .dict [("summary", .str "a")])])])]

/-- Current document with only the `summary` scalar changed. -/
def curSummaryChangedDoc : Value :=
  .dict [("paths", .dict [("/users", .dict [("get", .dict [("summary", .str "b")])])])]

/-- Current document with the `summary` changed and a `tags` key added
under the same operation. -/
def curSummaryTagsDoc : Value :=
  .dict [("paths", .dict [("/users", .dict [("get",
    .dict [("summary", .str "b"), ("tags", .list [.str "t"])])])])]

/-- Current document with two new keys added under the existing `get`
operation (duplicate-entry scenario). -/
def curTwoKeysDoc : Value :=
  .dict [("paths", .dict [("/users", .dict [("get",
    .dict [("summary", .str "a"), ("description", .str "b")])])])]

/-- Previous document for the duplicate-entry scenario: the bare `get`
operation. -/
def prevBareGetDoc : Value :=
  .dict [("paths", .dict [("/users", .dict [("get", .dict [])])])]

/-- Previous document of the exception scenario: its `paths` key holds an
integer, so the membership test of the operation processor raises
`TypeError`. -/
def prevRaisingDoc : Value :=
  .dict [("other", .dict [("/u", .dict [])]), ("paths", .int 5)]

/-- Current document of the exception scenario: a key added below
`other` parses to a path and method, forcing the raising membership
test. -/
def curRaisingDoc : Value :=
  .dict [("other", .dict [("/u", .dict [("get", .int 1)])]), ("paths", .int 5)]

/-- Current document of the bootstrap scenario: two paths and one
security scheme. -/
def bootstrapDoc : Value :=
  .dict [("paths", .dict [("/a", .dict []), ("/b", .dict [])]),
    ("components", .dict [("securitySchemes", .dict [("apiKey", .dict [])])])]

theorem lookupEntry_isSome_of_memKey :
    ∀ {ps : List (String × Value)} (e : String × Value), e ∈ ps →
      (lookupEntry e.1 ps).isSome = true
  | [], e, h => by cases h
  | (k', v') :: rest, e, h => by
    by_cases hk : k' = e.1
    · simp [lookupEntry, hk]
    · have : e ∈ rest := by
        rcases List.mem_cons.mp h with h1 | h1
        · exact absurd (congrArg Prod.fst h1.symm) hk
        · exact h1
      simp [lookupEntry, hk, lookupEntry_isSome_of_memKey e this]

theorem lookupEntry_eq_of_mem_nodup :
    ∀ {ps : List (String × Value)} {k : String} {v : Value},
      nodupKeys (ps.map (fun e => e.1)) = true → (k, v) ∈ ps →
      lookupEntry k ps = some v
  | [], _, _, _, h => by cases h
  | (k', v') :: rest, k, v, hn, hm => by
    have hn' : (k' ∉ rest.map (fun e => e.1)) ∧
        nodupKeys (rest.map (fun e => e.1)) = true := by
      simpa [nodupKeys, Bool.and_eq_true] using hn
    rcases List.mem_cons.mp hm with h1 | h1
    · obtain ⟨hk, hv⟩ := Prod.mk.injEq .. ▸ h1
      simp [lookupEntry, hk.symm, hv]
    · by_cases hk : k' = k
      · exact absurd (List.mem_map.mpr ⟨(k, v), h1, hk.symm⟩) hn'.1
      · simp [lookupEntry, hk, lookupEntry_eq_of_mem_nodup hn'.2 h1]

theorem wfV_of_mem_wfEntries :
    ∀ {ps : List (String × Value)} {k : String} {v : Value},
      wfEntries ps = true → (k, v) ∈ ps → wfV v = true
  | [], _, _, _, h => by cases h
  | (k', v') :: rest, k, v, hw, hm => by
    have hw' : wfV v' = true ∧ wfEntries rest = true := by
      simpa [wfEntries, Bool.and_eq_true] using hw
    rcases List.mem_cons.mp hm with h1 | h1
    · obtain ⟨_, hv⟩ := Prod.mk.injEq .. ▸ h1
      rw [hv]; exact hw'.1
    · exact wfV_of_mem_wfEntries hw'.2 h1

theorem enumFrom_map_snd : ∀ (n : Nat) (xs : List Value),
    (List.enumFrom n xs).map (fun e => e.2) = xs
  | _, [] => rfl
  | n, x :: rest => by simp [List.enumFrom, enumFrom_map_snd (n + 1) rest]

theorem enumFrom_map_canon_snd : ∀ (n : Nat) (xs : List Value),
    (List.enumFrom n xs).map (fun e => canonV e.2) = xs.map canonV
  | _, [] => rfl
  | n, x :: rest => by simp [List.enumFrom, enumFrom_map_canon_snd (n + 1) rest]

theorem eraseFirstMatch_canon : ∀ (x : Value) (cs : List (Nat × Value)),
    canonV x ∈ cs.map (fun e => canonV e.2) →
    ∃ cs₂, eraseFirstMatch x cs = some cs₂ ∧
      cs₂.map (fun e => canonV e.2) = (cs.map (fun e => canonV e.2)).erase (canonV x)
  | x, [], h => by cases h
  | x, (i, c) :: rest, h => by
    by_cases hc : canonV c = canonV x
    · exact ⟨rest, by simp [eraseFirstMatch, hc], by simp [hc, List.erase_cons_head]⟩
    · have hx : canonV x ∈ rest.map (fun e => canonV e.2) := by
        rw [List.map_cons] at h
        rcases List.mem_cons.mp h with h1 | h1
        · exact absurd h1.symm hc
        · exact h1
      obtain ⟨cs₂, he, hmap⟩ := eraseFirstMatch_canon x rest hx
      refine ⟨(i, c) :: cs₂, by simp [eraseFirstMatch, hc, he], ?_⟩
      simp [hmap, List.erase_cons_tail, hc]

theorem matchPhase_canon_perm : ∀ (xs : List Value) (cs : List (Nat × Value)),
    (xs.map canonV).Perm (cs.map (fun e => canonV e.2)) →
    matchPhase xs cs = (List.replicate xs.length true, [])
  | [], cs, h => by
    have : cs = [] := by
      have h2 := h.symm.eq_nil
      cases cs with
      | nil => rfl
      | cons c rest => simp at h2
    simp [this, matchPhase]
  | x :: xs, cs, h => by
    have hx : canonV x ∈ cs.map (fun e => canonV e.2) :=
      h.mem_iff.mp (by simp)
    obtain ⟨cs₂, he, hmap⟩ := eraseFirstMatch_canon x cs hx
    have hperm : (xs.map canonV).Perm (cs₂.map (fun e => canonV e.2)) := by
      rw [hmap]
      exact (List.cons_perm_iff_perm_erase.mp (by simpa using h)).2
    simp [matchPhase, he, matchPhase_canon_perm xs cs₂ hperm, List.replicate_succ]

theorem assignPairs_replicate_true :
    ∀ n, assignPairs (List.replicate n true) [] = List.replicate n none
  | 0 => rfl
  | n + 1 => by
    simp [List.replicate_succ, assignPairs, assignPairs_replicate_true n]

theorem diffElems_replicate_none :
    ∀ (ps : List Value) (n : Nat) (path : String),
      diffElems ps (List.replicate n none) path = {}
  | [], _, _ => by cases ‹Nat› <;> rfl
  | p :: rest, 0, path => rfl
  | p :: rest, n + 1, path => by
    simp [List.replicate_succ, diffElems, diffElems_replicate_none rest n path]

theorem countP_false_replicate_true (n : Nat) :
    (List.replicate n true).countP (fun f => f = false) = 0 := by
  induction n with
  | zero => rfl
  | succ n ih => simp [List.replicate_succ, List.countP_cons, ih]

mutual

theorem diff_self : ∀ (v : Value) (path : String), wfV v = true →
    deepDiffV v path v = {}
  | .str s, path, _ => by simp [deepDiffV]
  | .int n, path, _ => by simp [deepDiffV]
  | .bool b, path, _ => by simp [deepDiffV]
  | .null, path, _ => by simp [deepDiffV]
  | .dict ps, path, h => by
    have hsplit : nodupKeys (ps.map (fun e => e.1)) = true ∧ wfEntries ps = true := by
      simpa [wfV, Bool.and_eq_true] using h
    have hfil : ps.filter (fun e => (lookupEntry e.1 ps).isNone) = [] := by
      apply List.filter_eq_nil_iff.mpr
      intro e he
      have hs := lookupEntry_isSome_of_memKey e he
      simp only [Option.isNone_iff_eq_none]
      intro hcon
      rw [hcon] at hs
      simp at hs
    have hself := diffEntries_self ps path ps hsplit.2
      (fun k v hm => lookupEntry_eq_of_mem_nodup hsplit.1 hm)
    simp [deepDiffV, hfil, hself, DiffSet.append]
  | .list xs, path, h => by
    have he : xs.enum.map (fun e => canonV e.2) = xs.map canonV :=
      enumFrom_map_canon_snd 0 xs
    have hm := matchPhase_canon_perm xs xs.enum (by rw [he])
    have hpair : pairElems xs xs = List.replicate xs.length none := by
      simp [pairElems, hm, assignPairs_replicate_true]
    have hextra : extraCur xs xs = [] := by
      simp [extraCur, hm]
    have hcount : extraPrevCount xs xs = 0 := by
      simp [extraPrevCount, hm, countP_false_replicate_true]
    simp [deepDiffV, hpair, hextra, hcount,
      diffElems_replicate_none xs xs.length path, DiffSet.append]

theorem diffEntries_self : ∀ (ps : List (String × Value)) (path : String)
    (cs : List (String × Value)), wfEntries ps = true →
    (∀ k v, (k, v) ∈ ps → lookupEntry k cs = some v) →
    diffEntries ps path cs = {}
  | [], _, _, _, _ => rfl
  | (k, pv) :: rest, path, cs, hw, hl => by
    have hw' : wfV pv = true ∧ wfEntries rest = true := by
      simpa [wfEntries, Bool.and_eq_true] using hw
    have hk : lookupEntry k cs = some pv := hl k pv (List.mem_cons_self _ _)
    have hrec := diff_self pv (renderKey path k) hw'.1
    have hrest := diffEntries_self rest path cs hw'.2
      (fun k' v' hm => hl k' v' (List.mem_cons_of_mem _ hm))
    simp [diffEntries, hk, hrec, hrest, DiffSet.append]

end

theorem entriesEquiv_keys : ∀ {ps cs' : List (String × Value)}, EntriesEquiv ps cs' →
    ps.map (fun e => e.1) = cs'.map (fun e => e.1)
  | _, _, .nil => rfl
  | _, _, .cons _ hrest => by simp [entriesEquiv_keys hrest]

theorem entriesEquiv_counterpart : ∀ {ps cs' : List (String × Value)},
    EntriesEquiv ps cs' → ∀ k pv, (k, pv) ∈ ps →
    ∃ cv, (k, cv) ∈ cs' ∧ ValueEquiv pv cv
  | _, _, .nil, _, _, h => by cases h
  | _, _, @EntriesEquiv.cons k' v v' ps cs hv hrest, k, pv, hm => by
    rcases List.mem_cons.mp hm with h1 | h1
    · obtain ⟨hk, hpv⟩ := Prod.mk.injEq .. ▸ h1
      exact ⟨v', by simp [hk], hpv ▸ hv⟩
    · obtain ⟨cv, hcm, hcv⟩ := entriesEquiv_counterpart hrest k pv h1
      exact ⟨cv, List.mem_cons_of_mem _ hcm, hcv⟩

theorem entriesEquiv_length : ∀ {ps cs' : List (String × Value)},
    EntriesEquiv ps cs' → ps.length = cs'.length
  | _, _, .nil => rfl
  | _, _, .cons _ hrest => by simp [entriesEquiv_length hrest]

theorem elemsEquivKey_length : ∀ {xs ys : List Value},
    ElemsEquivKey xs ys → xs.length = ys.length
  | _, _, .nil => rfl
  | _, _, .cons _ hrest => by simp [elemsEquivKey_length hrest]

theorem equiv_truthy : ∀ {p c : Value}, ValueEquiv p c → truthyV p = truthyV c
  | _, _, .refl v => rfl
  | _, _, @ValueEquiv.dict ps cs' cs h hp => by
    have hlen : ps.length = cs.length := (entriesEquiv_length h).trans hp.length_eq
    cases ps with
    | nil =>
      cases cs with
      | nil => rfl
      | cons c₀ rest => simp at hlen
    | cons p₀ rest =>
      cases cs with
      | nil => simp at hlen
      | cons c₀ rest' => simp [truthyV]
  | _, _, @ValueEquiv.list xs ys' ys h hp => by
    have hlen : xs.length = ys.length := (elemsEquivKey_length h).trans hp.length_eq
    cases xs with
    | nil =>
      cases ys with
      | nil => rfl
      | cons c₀ rest => simp at hlen
    | cons p₀ rest =>
      cases ys with
      | nil => simp at hlen
      | cons c₀ rest' => simp [truthyV]

theorem sizeOf_val_lt_of_mem {ps : List (String × Value)} {k : String} {pv : Value}
    (h : (k, pv) ∈ ps) : sizeOf pv < sizeOf (Value.dict ps) := by
  have h1 := List.sizeOf_lt_of_mem h
  have h2 : sizeOf pv < sizeOf (k, pv) := by
    simp only [Prod.mk.sizeOf_spec]
    omega
  simp only [Value.dict.sizeOf_spec]
  omega

theorem sizeOf_elem_lt_of_mem {xs : List Value} {x : Value}
    (h : x ∈ xs) : sizeOf x < sizeOf (Value.list xs) := by
  have h1 := List.sizeOf_lt_of_mem h
  simp only [Value.list.sizeOf_spec]
  omega

theorem string_toList_inj : ∀ (a b : String), a.toList = b.toList → a = b := by
  intro a b h
  cases a
  cases b
  simp only [String.toList] at h
  rw [h]

theorem strLeList_refl : ∀ (l : List Char), strLeList l l = true
  | [] => rfl
  | a :: as => by simp [strLeList, strLeList_refl as]

theorem entryLe_refl (a : String × Value) : entryLe a a := strLeList_refl _

theorem strLeList_total : ∀ (a b : List Char),
    strLeList a b = true ∨ strLeList b a = true
  | [], _ => Or.inl rfl
  | _ :: _, [] => Or.inr rfl
  | a :: as, b :: bs => by
    by_cases hv : a.val.toNat = b.val.toNat
    · have hv2 : b.val.toNat = a.val.toNat := hv.symm
      rcases strLeList_total as bs with h | h
      · exact Or.inl (by simp [strLeList, hv, h])
      · exact Or.inr (by simp [strLeList, hv2, h])
    · by_cases hlt : a.val.toNat < b.val.toNat
      · exact Or.inl (by simp [strLeList, hv, hlt])
      · have hv2 : ¬ b.val.toNat = a.val.toNat := fun h => hv h.symm
        have hlt2 : b.val.toNat < a.val.toNat := by omega
        exact Or.inr (by simp [strLeList, hv2, hlt2])

theorem strLeList_trans : ∀ (a b c : List Char), strLeList a b = true →
    strLeList b c = true → strLeList a c = true
  | [], _, _, _, _ => rfl
  | _ :: _, [], _, h1, _ => by simp [strLeList] at h1
  | _ :: _, _ :: _, [], _, h2 => by simp [strLeList] at h2
  | a :: as, b :: bs, c :: cs, h1, h2 => by
    by_cases hab : a.val.toNat = b.val.toNat
    · by_cases hbc : b.val.toNat = c.val.toNat
      · have hac : a.val.toNat = c.val.toNat := hab.trans hbc
        simp only [strLeList, if_pos hab] at h1
        simp only [strLeList, if_pos hbc] at h2
        simp [strLeList, hac, strLeList_trans as bs cs h1 h2]
      · have hlt : b.val.toNat < c.val.toNat := by
          simpa [strLeList, hbc] using h2
        have hac : ¬ a.val.toNat = c.val.toNat := by omega
        have hltac : a.val.toNat < c.val.toNat := by omega
        simp [strLeList, hac, hltac]
    · have hlt1 : a.val.toNat < b.val.toNat := by
        simpa [strLeList, hab] using h1
      by_cases hbc : b.val.toNat = c.val.toNat
      · have hac : ¬ a.val.toNat = c.val.toNat := by omega
        have hltac : a.val.toNat < c.val.toNat := by omega
        simp [strLeList, hac, hltac]
      · have hlt2 : b.val.toNat < c.val.toNat := by
          simpa [strLeList, hbc] using h2
        have hac : ¬ a.val.toNat = c.val.toNat := by omega
        have hltac : a.val.toNat < c.val.toNat := by omega
        simp [strLeList, hac, hltac]

theorem strLeList_antisymm : ∀ (a b : List Char), strLeList a b = true →
    strLeList b a = true → a = b
  | [], [], _, _ => rfl
  | [], _ :: _, _, h2 => by simp [strLeList] at h2
  | _ :: _, [], h1, _ => by simp [strLeList] at h1
  | a :: as, b :: bs, h1, h2 => by
    by_cases hab : a.val.toNat = b.val.toNat
    · have hba : b.val.toNat = a.val.toNat := hab.symm
      have hchar : a = b := Char.ext (UInt32.ext hab)
      simp only [strLeList, if_pos hab] at h1
      simp only [strLeList, if_pos hba] at h2
      rw [hchar, strLeList_antisymm as bs h1 h2]
    · have hba : ¬ b.val.toNat = a.val.toNat := fun h => hab h.symm
      have hlt1 : a.val.toNat < b.val.toNat := by
        simpa [strLeList, hab] using h1
      have hlt2 : b.val.toNat < a.val.toNat := by
        simpa [strLeList, hba] using h2
      omega

theorem nodupKeys_iff : ∀ (ks : List String), nodupKeys ks = true ↔ ks.Nodup
  | [] => by simp [nodupKeys]
  | k :: rest => by
    rw [show nodupKeys (k :: rest) = (!List.elem k rest && nodupKeys rest) from rfl,
      Bool.and_eq_true, nodupKeys_iff rest, List.nodup_cons]
    constructor
    · rintro ⟨h1, h2⟩
      refine ⟨fun hm => ?_, h2⟩
      rw [List.elem_iff.mpr hm] at h1
      simp at h1
    · rintro ⟨h1, h2⟩
      refine ⟨?_, h2⟩
      cases hcon : List.elem k rest with
      | false => rfl
      | true => exact absurd (List.elem_iff.mp hcon) h1

theorem wfEntries_iff_forall : ∀ (l : List (String × Value)),
    wfEntries l = true ↔ ∀ k v, (k, v) ∈ l → wfV v = true
  | [] => by simp [wfEntries]
  | (k, v) :: rest => by
    rw [show wfEntries ((k, v) :: rest) = (wfV v && wfEntries rest) from rfl,
      Bool.and_eq_true, wfEntries_iff_forall rest]
    constructor
    · rintro ⟨h1, h2⟩ k2 v2 hm
      rcases List.mem_cons.mp hm with he | he
      · obtain ⟨hk2, hv2⟩ := Prod.mk.injEq .. ▸ he
        rw [hv2]
        exact h1
      · exact h2 k2 v2 he
    · intro hall
      exact ⟨hall k v (List.mem_cons_self _ _),
        fun k2 v2 hm => hall k2 v2 (List.mem_cons_of_mem _ hm)⟩

theorem wfElems_iff_forall : ∀ (l : List Value),
    wfElems l = true ↔ ∀ v, v ∈ l → wfV v = true
  | [] => by simp [wfElems]
  | v :: rest => by
    rw [show wfElems (v :: rest) = (wfV v && wfElems rest) from rfl,
      Bool.and_eq_true, wfElems_iff_forall rest]
    constructor
    · rintro ⟨h1, h2⟩ v2 hm
      rcases List.mem_cons.mp hm with he | he
      · rw [he]
        exact h1
      · exact h2 v2 he
    · intro hall
      exact ⟨hall v (List.mem_cons_self _ _),
        fun v2 hm => hall v2 (List.mem_cons_of_mem _ hm)⟩

theorem canonEntries_map : ∀ (l : List (String × Value)),
    canonEntries l = l.map (fun e => (e.1, canonV e.2))
  | [] => rfl
  | (k, v) :: rest => by simp [canonEntries, canonEntries_map rest]

theorem canonEntries_keys (l : List (String × Value)) :
    (canonEntries l).map (fun e => e.1) = l.map (fun e => e.1) := by
  rw [canonEntries_map, List.map_map]
  rfl

theorem sorted_nodupkeys_perm_eq : ∀ (l₁ l₂ : List (String × Value)),
    List.Sorted entryLe l₁ → List.Sorted entryLe l₂ → l₁.Perm l₂ →
    (l₁.map (fun e => e.1)).Nodup → l₁ = l₂
  | [], _, _, _, hp, _ => hp.symm.eq_nil.symm
  | _ :: _, [], _, _, hp, _ => by
    have h2 := hp.length_eq
    simp at h2
  | (k, v) :: t₁, (k₂, v₂) :: t₂, hs₁, hs₂, hp, hnd => by
    have hmem₂ : (k₂, v₂) ∈ (k, v) :: t₁ := hp.mem_iff.mpr (List.mem_cons_self _ _)
    have hmem₁ : (k, v) ∈ (k₂, v₂) :: t₂ := hp.mem_iff.mp (List.mem_cons_self _ _)
    have hle₁ : entryLe (k, v) (k₂, v₂) := by
      rcases List.mem_cons.mp hmem₂ with h1 | h1
      · rw [h1]
        exact entryLe_refl _
      · exact List.rel_of_sorted_cons hs₁ _ h1
    have hle₂ : entryLe (k₂, v₂) (k, v) := by
      rcases List.mem_cons.mp hmem₁ with h1 | h1
      · rw [h1]
        exact entryLe_refl _
      · exact List.rel_of_sorted_cons hs₂ _ h1
    have hkeq : k = k₂ := string_toList_inj _ _ (strLeList_antisymm _ _ hle₁ hle₂)
    subst hkeq
    have hveq : v = v₂ := by
      rcases List.mem_cons.mp hmem₁ with h1 | h1
      · exact congrArg Prod.snd h1
      · exfalso
        have hnd₂ : (((k, v₂) :: t₂).map (fun e => e.1)).Nodup :=
          ((hp.map (fun e => e.1)).nodup_iff).mp hnd
        rw [List.map_cons, List.nodup_cons] at hnd₂
        exact hnd₂.1 (List.mem_map.mpr ⟨(k, v), h1, rfl⟩)
    subst hveq
    have hp2 : t₁.Perm t₂ := hp.cons_inv
    have hnd2 : (t₁.map (fun e => e.1)).Nodup := by
      rw [List.map_cons, List.nodup_cons] at hnd
      exact hnd.2
    rw [sorted_nodupkeys_perm_eq t₁ t₂ (List.sorted_cons.mp hs₁).2
      (List.sorted_cons.mp hs₂).2 hp2 hnd2]

mutual

theorem canonV_eq_of_key : ∀ (a b : Value), ValueEquivKey a b →
    wfV a = true → wfV b = true → canonV a = canonV b
  | a, b, hk, hwa, hwb => by
    cases hk with
    | refl => rfl
    | @dict ps cs' cs h hp =>
      have hwps : nodupKeys (ps.map (fun e => e.1)) = true ∧ wfEntries ps = true := by
        simpa [wfV, Bool.and_eq_true] using hwa
      have hwcs : nodupKeys (cs.map (fun e => e.1)) = true ∧ wfEntries cs = true := by
        simpa [wfV, Bool.and_eq_true] using hwb
      obtain ⟨hnps, hwes⟩ := hwps
      obtain ⟨hncs, hwec⟩ := hwcs
      have hwec2 : wfEntries cs' = true := by
        rw [wfEntries_iff_forall]
        rw [wfEntries_iff_forall] at hwec
        exact fun k v hv => hwec k v (hp.mem_iff.mp hv)
      have h1 : canonEntries ps = canonEntries cs' :=
        canonEntries_eq_of_key ps cs' h hwes hwec2
      have h2 : (canonEntries cs').Perm (canonEntries cs) := by
        rw [canonEntries_map cs', canonEntries_map cs]
        exact hp.map _
      have instT : IsTotal (String × Value) entryLe :=
        ⟨fun a b => strLeList_total a.1.toList b.1.toList⟩
      have instTr : IsTrans (String × Value) entryLe :=
        ⟨fun a b c => strLeList_trans a.1.toList b.1.toList c.1.toList⟩
      have hs1 : List.Sorted entryLe (List.insertionSort entryLe (canonEntries cs')) :=
        @List.sorted_insertionSort _ entryLe _ instT instTr _
      have hs2 : List.Sorted entryLe (List.insertionSort entryLe (canonEntries cs)) :=
        @List.sorted_insertionSort _ entryLe _ instT instTr _
      have hperm2 : (List.insertionSort entryLe (canonEntries cs')).Perm
          (List.insertionSort entryLe (canonEntries cs)) :=
        ((List.perm_insertionSort entryLe _).trans h2).trans
          (List.perm_insertionSort entryLe _).symm
      have hnd : ((List.insertionSort entryLe (canonEntries cs')).map
          (fun e => e.1)).Nodup := by
        have hpk := (List.perm_insertionSort entryLe (canonEntries cs')).map
          (fun (e : String × Value) => e.1)
        apply hpk.nodup_iff.mpr
        rw [canonEntries_keys]
        have hck : (cs'.map (fun e => e.1)).Perm (cs.map (fun e => e.1)) := hp.map _
        exact hck.nodup_iff.mpr ((nodupKeys_iff _).mp hncs)
      have hfin : List.insertionSort entryLe (canonEntries cs') =
          List.insertionSort entryLe (canonEntries cs) :=
        sorted_nodupkeys_perm_eq _ _ hs1 hs2 hperm2 hnd
      simp only [canonV]
      rw [h1, hfin]
    | @list xs ys h =>
      have hwxs : wfElems xs = true := by simpa [wfV] using hwa
      have hwys : wfElems ys = true := by simpa [wfV] using hwb
      simp only [canonV]
      rw [canonElems_eq_of_key xs ys h hwxs hwys]
termination_by a b hk hwa hwb => sizeOf a
decreasing_by
  all_goals subst_vars
  · simp only [Value.dict.sizeOf_spec]
    omega
  · simp only [Value.list.sizeOf_spec]
    omega

theorem canonEntries_eq_of_key : ∀ (qs qs₂ : List (String × Value)),
    EntriesEquivKey qs qs₂ → wfEntries qs = true → wfEntries qs₂ = true →
    canonEntries qs = canonEntries qs₂
  | _, _, .nil, _, _ => rfl
  | _, _, @EntriesEquivKey.cons k v v₂ rest rest₂ hv hrest, hwq, hwq₂ => by
    have hwq1 : wfV v = true ∧ wfEntries rest = true := by
      simpa [wfEntries, Bool.and_eq_true] using hwq
    have hwq2 : wfV v₂ = true ∧ wfEntries rest₂ = true := by
      simpa [wfEntries, Bool.and_eq_true] using hwq₂
    simp [canonEntries, canonV_eq_of_key v v₂ hv hwq1.1 hwq2.1,
      canonEntries_eq_of_key rest rest₂ hrest hwq1.2 hwq2.2]
termination_by qs qs₂ hq hwq hwq₂ => sizeOf qs
decreasing_by
  all_goals simp only [List.cons.sizeOf_spec, Prod.mk.sizeOf_spec]
  all_goals omega

theorem canonElems_eq_of_key : ∀ (qs qs₂ : List Value),
    ElemsEquivKey qs qs₂ → wfElems qs = true → wfElems qs₂ = true →
    canonElems qs = canonElems qs₂
  | _, _, .nil, _, _ => rfl
  | _, _, @ElemsEquivKey.cons v v₂ rest rest₂ hv hrest, hwq, hwq₂ => by
    have hwq1 : wfV v = true ∧ wfElems rest = true := by
      simpa [wfElems, Bool.and_eq_true] using hwq
    have hwq2 : wfV v₂ = true ∧ wfElems rest₂ = true := by
      simpa [wfElems, Bool.and_eq_true] using hwq₂
    simp [canonElems, canonV_eq_of_key v v₂ hv hwq1.1 hwq2.1,
      canonElems_eq_of_key rest rest₂ hrest hwq1.2 hwq2.2]
termination_by qs qs₂ hq hwq hwq₂ => sizeOf qs
decreasing_by
  all_goals simp only [List.cons.sizeOf_spec]
  all_goals omega

end

theorem elemsEquivKey_canon_map : ∀ {xs ys : List Value}, ElemsEquivKey xs ys →
    wfElems xs = true → wfElems ys = true → xs.map canonV = ys.map canonV
  | _, _, .nil, _, _ => rfl
  | _, _, @ElemsEquivKey.cons v v₂ rest rest₂ hv hrest, hw1, hw2 => by
    have h1 : wfV v = true ∧ wfElems rest = true := by
      simpa [wfElems, Bool.and_eq_true] using hw1
    have h2 : wfV v₂ = true ∧ wfElems rest₂ = true := by
      simpa [wfElems, Bool.and_eq_true] using hw2
    simp [canonV_eq_of_key v v₂ hv h1.1 h2.1, elemsEquivKey_canon_map hrest h1.2 h2.2]

theorem equiv_diff_empty : ∀ (p c : Value), ValueEquiv p c → ∀ (path : String),
    wfV p = true → wfV c = true → deepDiffV p path c = {}
  | p, c, heq, path, hwp, hwc => by
    cases heq with
    | refl => exact diff_self _ path hwp
    | @dict ps cs' cs h hp =>
      have hwps : nodupKeys (ps.map (fun e => e.1)) = true ∧ wfEntries ps = true := by
        simpa [wfV, Bool.and_eq_true] using hwp
      have hwcs : nodupKeys (cs.map (fun e => e.1)) = true ∧ wfEntries cs = true := by
        simpa [wfV, Bool.and_eq_true] using hwc
      have hkeys : ps.map (fun e => e.1) = cs'.map (fun e => e.1) := entriesEquiv_keys h
      have hkeysperm : (cs.map (fun e => e.1)).Perm (ps.map (fun e => e.1)) := by
        rw [hkeys]
        exact (hp.map (fun e => e.1)).symm
      have hfil : cs.filter (fun e => (lookupEntry e.1 ps).isNone) = [] := by
        apply List.filter_eq_nil_iff.mpr
        intro e he
        have hmm : e.1 ∈ ps.map (fun e => e.1) :=
          hkeysperm.mem_iff.mp (List.mem_map.mpr ⟨e, he, rfl⟩)
        obtain ⟨e', he', hek⟩ := List.mem_map.mp hmm
        have hsome := lookupEntry_isSome_of_memKey e' he'
        rw [hek] at hsome
        simp only [Option.isNone_iff_eq_none]
        intro hcon
        rw [hcon] at hsome
        simp at hsome
      have hinner : ∀ (qs : List (String × Value)), (∀ e, e ∈ qs → e ∈ ps) →
          wfEntries qs = true → diffEntries qs path cs = {} := by
        intro qs
        induction qs with
        | nil => intro _ _; rfl
        | cons e rest ih =>
          intro hsub hwq
          obtain ⟨k, pv⟩ := e
          have hwq' : wfV pv = true ∧ wfEntries rest = true := by
            simpa [wfEntries, Bool.and_eq_true] using hwq
          have hmem : (k, pv) ∈ ps := hsub _ (List.mem_cons_self _ _)
          obtain ⟨cv, hcm', hcv⟩ := entriesEquiv_counterpart h k pv hmem
          have hcm : (k, cv) ∈ cs := hp.mem_iff.mp hcm'
          have hlook : lookupEntry k cs = some cv := lookupEntry_eq_of_mem_nodup hwcs.1 hcm
          have hwcv : wfV cv = true := wfV_of_mem_wfEntries hwcs.2 hcm
          have hrec : deepDiffV pv (renderKey path k) cv = {} :=
            equiv_diff_empty pv cv hcv (renderKey path k) hwq'.1 hwcv
          simp [diffEntries, hlook, hrec,
            ih (fun e he => hsub _ (List.mem_cons_of_mem _ he)) hwq'.2, DiffSet.append]
      simp [deepDiffV, hfil, hinner ps (fun _ he => he) hwps.2, DiffSet.append]
    | @list xs ys' ys h hp =>
      have hwxs : wfElems xs = true := by simpa [wfV] using hwp
      have hwys : wfElems ys = true := by simpa [wfV] using hwc
      have hwys2 : wfElems ys' = true := by
        rw [wfElems_iff_forall]
        rw [wfElems_iff_forall] at hwys
        exact fun x hx => hwys x (hp.mem_iff.mp hx)
      have hmapeq : xs.map canonV = ys'.map canonV :=
        elemsEquivKey_canon_map h hwxs hwys2
      have henum : ys.enum.map (fun e => canonV e.2) = ys.map canonV :=
        enumFrom_map_canon_snd 0 ys
      have hm : matchPhase xs ys.enum = (List.replicate xs.length true, []) := by
        apply matchPhase_canon_perm
        rw [henum, hmapeq]
        exact hp.map canonV
      have hpair : pairElems xs ys = List.replicate xs.length none := by
        simp [pairElems, hm, assignPairs_replicate_true]
      have hextra : extraCur xs ys = [] := by simp [extraCur, hm]
      have hcount : extraPrevCount xs ys = 0 := by
        simp [extraPrevCount, hm, countP_false_replicate_true]
      simp [deepDiffV, hpair, hextra, hcount,
        diffElems_replicate_none xs xs.length path, DiffSet.append]
termination_by p c heq path hwp hwc => sizeOf p
decreasing_by
  subst_vars
  exact sizeOf_val_lt_of_mem hmem

theorem myIsPrefixOf_iff : ∀ (l1 l2 : List Char), l1.isPrefixOf l2 = true ↔ l1 <+: l2
  | [], _ => by simp
  | a :: as, [] => by simp
  | a :: as, b :: bs => by
    simp [List.isPrefixOf_cons₂, myIsPrefixOf_iff as bs, List.cons_prefix_cons]

theorem prefix_of_drop_append {sep l r : List Char} {k : Nat} (hk : k ≤ l.length)
    (h : sep <+: l.drop k) : sep <+: (l ++ r).drop k := by
  rw [List.drop_append_of_le_length hk]
  exact h.trans (List.prefix_append _ _)

theorem infix_reverse_drop {sep l : List Char} (hsep : sep ≠ []) (h : sep <:+: l) :
    ∃ k, k < l.length ∧ sep <+: l.drop k := by
  obtain ⟨t, hpre, hsuf⟩ := List.infix_iff_prefix_suffix.mp h
  obtain ⟨u, hu⟩ := hsuf
  refine ⟨u.length, ?_, ?_⟩
  · have hlen : u.length + t.length = l.length := by
      rw [← hu]; simp
    have htlen : 0 < t.length := by
      cases t with
      | nil => simp at hpre; exact absurd hpre hsep
      | cons a as => simp
    omega
  · have : l.drop u.length = t := by
      rw [← hu]
      simp
    rw [this]
    exact hpre

theorem pySplitGo_no_sep : ∀ (sep : List Char) (fuel : Nat) (acc rest : List Char),
    sep ≠ [] → rest.length ≤ fuel →
    (∀ k, k < acc.length → sep.isPrefixOf ((acc.reverse ++ rest).drop k) = false) →
    ∀ part ∈ pySplitGo sep fuel acc rest, ¬ (sep <:+: part)
  | sep, fuel, acc, [], hsep, _, hinv, part, hpart => by
    have hres : pySplitGo sep fuel acc [] = [acc.reverse] := by
      cases fuel <;> rfl
    rw [hres] at hpart
    have hpeq : part = acc.reverse := by simpa using hpart
    subst hpeq
    intro hinf
    obtain ⟨k, hk, hpre⟩ := infix_reverse_drop hsep hinf
    have hk' : k < acc.length := by simpa using hk
    have hfalse := hinv k hk'
    rw [List.append_nil] at hfalse
    rw [← myIsPrefixOf_iff] at hpre
    rw [hfalse] at hpre
    simp at hpre
  | sep, 0, acc, c :: rs, hsep, hlen, hinv, part, hpart => by
    simp at hlen
  | sep, fuel+1, acc, c :: rs, hsep, hlen, hinv, part, hpart => by
    by_cases hpre : sep.isPrefixOf (c :: rs) = true
    · have hres : pySplitGo sep (fuel+1) acc (c :: rs) =
          acc.reverse :: pySplitGo sep fuel [] ((c :: rs).drop sep.length) := by
        simp [pySplitGo, hpre]
      rw [hres] at hpart
      rcases List.mem_cons.mp hpart with h1 | h1
      · subst h1
        intro hinf
        obtain ⟨k, hk, hp2⟩ := infix_reverse_drop hsep hinf
        have hk' : k < acc.length := by simpa using hk
        have hfalse := hinv k hk'
        have hp3 : sep <+: ((acc.reverse ++ (c :: rs)).drop k) :=
          prefix_of_drop_append (by simp; omega) hp2
        rw [← myIsPrefixOf_iff] at hp3
        rw [hfalse] at hp3
        simp at hp3
      · have hsl : 1 ≤ sep.length := by
          cases sep with
          | nil => exact absurd rfl hsep
          | cons a as => simp
        have hlen' : ((c :: rs).drop sep.length).length ≤ fuel := by
          simp
          simp at hlen
          omega
        exact pySplitGo_no_sep sep fuel [] ((c :: rs).drop sep.length) hsep hlen'
          (by intro k hk; simp at hk) part h1
    · have hres : pySplitGo sep (fuel+1) acc (c :: rs) = pySplitGo sep fuel (c :: acc) rs := by
        simp [pySplitGo, hpre]
      rw [hres] at hpart
      refine pySplitGo_no_sep sep fuel (c :: acc) rs hsep (by simp at hlen ⊢; omega) ?_ part hpart
      intro k hk
      have heq : (c :: acc).reverse ++ rs = acc.reverse ++ (c :: rs) := by simp
      rw [heq]
      by_cases hkk : k < acc.length
      · exact hinv k hkk
      · have hke : k = acc.length := by
          simp at hk
          omega
        subst hke
        have hdrop : (acc.reverse ++ (c :: rs)).drop acc.length = c :: rs := by
          have hrl : acc.reverse.length = acc.length := by simp
          rw [← hrl, List.drop_left]
        rw [hdrop]
        exact Bool.eq_false_iff.mpr hpre

theorem pySplit_no_sep (s sep : String) (hsep : sep.toList ≠ []) :
    ∀ part ∈ pySplit s sep, substrOf sep part = false := by
  intro part hpart
  have hmem : ∃ l ∈ pySplitGo sep.toList s.toList.length [] s.toList, part = ⟨l⟩ := by
    simp only [pySplit, if_neg hsep] at hpart
    obtain ⟨l, hl, hp⟩ := List.mem_map.mp hpart
    exact ⟨l, hl, hp.symm⟩
  obtain ⟨l, hl, hp⟩ := hmem
  have hnos := pySplitGo_no_sep sep.toList s.toList.length [] s.toList hsep
    (le_refl _) (by intro k hk; simp at hk) l hl
  subst hp
  simp only [substrOf]
  have : (String.mk l).toList = l := rfl
  rw [this]
  exact decide_eq_false hnos

theorem sep_infix_of_method_pattern (m part : String)
    (h : substrOf ("[\x27" ++ m ++ "\x27]") part = true) :
    substrOf "\x27]" part = true := by
  simp only [substrOf, decide_eq_true_eq] at h ⊢
  refine List.IsInfix.trans ?_ h
  have hdec : ("[\x27" ++ m ++ "\x27]").toList =
      "[\x27".toList ++ m.toList ++ "\x27]".toList := by
    simp [String.toList, String.data_append]
  rw [hdec]
  exact (List.suffix_append _ _).isInfix

theorem fromKeyStep_method_none (parts : List String)
    (hno : ∀ part ∈ parts, substrOf "\x27]" part = false) :
    ∀ st : Option String × Option String, st.2 = none →
      (parts.foldl fromKeyStep st).2 = none := by
  induction parts with
  | nil => intro st h; exact h
  | cons part rest ih =>
    intro st h
    have hstep : (fromKeyStep st part).2 = none := by
      have hnom : http_methods.any
          (fun m => substrOf ("[\x27" ++ m ++ "\x27]") part) = false := by
        apply List.any_eq_false.mpr
        intro m _
        intro hcon
        have := sep_infix_of_method_pattern m part hcon
        rw [hno part (List.mem_cons_self _ _)] at this
        simp at this
      by_cases hsl : substrOf "[\x27/" part = true
      · simp [fromKeyStep, hsl, h]
      · simp only [Bool.not_eq_true] at hsl
        simp [fromKeyStep, hsl, hnom, h]
    have := ih (fun p hp => hno p (List.mem_cons_of_mem _ hp)) (fromKeyStep st part) hstep
    simpa [List.foldl_cons] using this

/-- The method scan of `_extract_operation_from_key` can never succeed:
the key is split on `']`, so no fragment can contain a closed pattern
`['{method}']` — the closing-bracket substring does not survive the
split. Consequently the function returns `None` on every input. This is
the string-based path-redetection failure mode the specification's design
notes describe. -/
theorem extract_operation_from_key_eq_none (key_str : String) :
    extract_operation_from_key key_str = none := by
  by_cases hp : substrOf "paths" key_str = true
  · have hno : ∀ part ∈ pySplit key_str "\x27]", substrOf "\x27]" part = false :=
      pySplit_no_sep key_str "\x27]" (by decide)
    have hfold := fromKeyStep_method_none (pySplit key_str "\x27]") hno (none, none) rfl
    simp [extract_operation_from_key, hp, hfold, truthyStrO]
  · simp only [Bool.not_eq_true] at hp
    simp [extract_operation_from_key, hp]

theorem extract_parameter_info_eq_none (key_str : String) :
    extract_parameter_info key_str = none := by
  simp [extract_parameter_info, extract_operation_from_key_eq_none]

theorem check_if_required_parameter_eq_none (item_str : String) (cur : Value) :
    check_if_required_parameter item_str cur = none := by
  simp [check_if_required_parameter, extract_operation_from_key_eq_none]

theorem foldl_id {α β : Type} : ∀ (l : List β) (init : α),
    l.foldl (fun acc _ => acc) init = init
  | [], _ => rfl
  | _ :: rest, init => foldl_id rest init

theorem filterMap_none {α β : Type} : ∀ (l : List α),
    l.filterMap (fun _ => (none : Option β)) = []
  | [] => rfl
  | _ :: rest => by simp [List.filterMap_cons, filterMap_none rest]

/-- The parameter processor (`_process_parameter_changes`) can never record a required parameter:
both of its extraction helpers go through the always-failing
`_extract_operation_from_key`. -/
theorem process_parameter_changes_eq_nil (diff : DiffSet) (cur : Value) :
    process_parameter_changes diff cur = ([], []) := by
  simp only [process_parameter_changes, extract_parameter_info_eq_none,
    check_if_required_parameter_eq_none]
  rw [show (fun (acc : List String × List String) (kv : String × Value × Value) =>
      if substrOf "required" kv.1 && substrOf "parameters" kv.1 then
        if pyEqBool kv.2.1 false && pyEqBool kv.2.2 true then acc
        else if pyEqBool kv.2.1 true && pyEqBool kv.2.2 false then acc
        else acc
      else acc) = (fun acc _ => acc) from by
    funext acc kv
    by_cases h1 : substrOf "required" kv.1 && substrOf "parameters" kv.1 = true <;>
      simp_all]
  simp [foldl_id, filterMap_none]

/-- The format processor (`_process_request_response_changes`) can never record a format change,
for the same reason. -/
theorem process_request_response_changes_eq_nil (diff : DiffSet) :
    process_request_response_changes diff = ([], []) := by
  simp [process_request_response_changes, extract_operation_from_key_eq_none,
    filterMap_none, pySetList, pySetList.go]

/-- The security processor (`_process_security_changes`) can never record an operation-level
security change, for the same reason. -/
theorem process_security_changes_op_nil (diff : DiffSet) :
    (process_security_changes diff).2.1 = [] := by
  simp [process_security_changes, extract_operation_from_key_eq_none, filterMap_none]

theorem categorize_changes_empty (p c : Value) :
    categorize_changes {} p c = .ok {} := rfl

theorem anyChanges_empty : anyChanges {} = false := rfl

/-- C7: for every pair of documents equal up to mapping key-insertion
order (at any depth, also inside mappings reached through sequences) and
up to permutation of the elements of a sequence such as the `security`
requirement array — the permuted elements themselves allowed to differ by
key-insertion order — including the identical pair — the comparison
reports no changes: `detect_changes` returns the null result `None`. -/
theorem c7_order_independence (p c : Value) (hwp : wfV p = true) (hwc : wfV c = true)
    (heq : ValueEquiv p c) : detect_changes (some c) (some p) = none := by
  by_cases htc : truthyV c = true
  · have htp : truthyV p = true := (equiv_truthy heq).trans htc
    have hdiff : deepDiffV p "root" c = {} := equiv_diff_empty p c heq "root" hwp hwc
    simp [detect_changes, htc, truthyO, htp, hdiff, categorize_changes_empty, anyChanges_empty]
  · simp only [Bool.not_eq_true] at htc
    simp [detect_changes, htc]

theorem c7_order_independence_witness :
    detect_changes
      (some (.dict [("info", .dict [("y", .int 2), ("x", .int 1)]),
                    ("security", .list [.str "k",
                      .dict [("scheme", .str "s"), ("scope", .str "r")]])]))
      (some (.dict [("security", .list [
                      .dict [("scope", .str "r"), ("scheme", .str "s")], .str "k"]),
                    ("info", .dict [("x", .int 1), ("y", .int 2)])])) = none :=
  c7_order_independence _ _ (by decide) (by decide)
    (ValueEquiv.dict
      (.cons
        (.list
          (.cons (.dict (.cons (.refl _) (.cons (.refl _) .nil)) (.swap _ _ _))
            (.cons (.refl _) .nil))
          (.swap _ _ _))
        (.cons (.dict (.cons (.refl _) (.cons (.refl _) .nil)) (.swap _ _ _)) .nil))
      (.swap _ _ _))

/-- C6: for every truthy current document, when the previous document is
absent or falsy `detect_changes` skips the generic diff and returns
exactly the bootstrap report: `added.paths` = keys of `current.paths`,
`added.security_schemes` = keys of `current.components.securitySchemes`,
with `changed` and `removed` empty. -/
theorem c6_bootstrap (cur : Value) (previous : Option Value)
    (hc : truthyV cur = true) (hp : truthyO previous = false) :
    detect_changes (some cur) previous =
      some { added := { paths := dictKeys (dictGetD cur "paths" (.dict []))
                        security_schemes := dictKeys (dictGetD
                          (dictGetD cur "components" (.dict [])) "securitySchemes"
                          (.dict [])) }
             changed := {}
             removed := {} } := by
  simp [detect_changes, hc, hp]

theorem c6_bootstrap_witness :
    detect_changes (some bootstrapDoc) none =
      some { added := { paths := ["/a", "/b"], security_schemes := ["apiKey"] }
             changed := {}
             removed := {} } := by
  rw [c6_bootstrap bootstrapDoc none (by decide) rfl]
  decide

/-- C10: whenever the current document is absent or falsy,
`detect_changes` returns `None` — even against a non-empty previous
document it is never reported as a bootstrap report or as wholesale
removal. -/
theorem c10_falsy_current (current_spec previous_spec : Option Value)
    (h : truthyO current_spec = false) :
    detect_changes current_spec previous_spec = none := by
  cases current_spec with
  | none => rfl
  | some cur =>
    simp only [truthyO] at h
    simp [detect_changes, h]

theorem c10_falsy_current_witness :
    detect_changes (some (.dict [])) (some prevRemovalDoc) = none ∧
    detect_changes none (some prevRemovalDoc) = none :=
  ⟨c10_falsy_current (some (.dict [])) (some prevRemovalDoc) (by decide),
   c10_falsy_current none (some prevRemovalDoc) rfl⟩

/-- C8: for every pair of truthy documents, when categorizing the
computed diff raises an exception, `detect_changes` catches it and
returns `None` instead of propagating it to the caller. -/
theorem c8_exception_caught (cur prev : Value) (e : PyErr)
    (hc : truthyV cur = true) (hp : truthyV prev = true)
    (herr : categorize_changes (deepDiffV prev "root" cur) prev cur = .error e) :
    detect_changes (some cur) (some prev) = none := by
  simp [detect_changes, hc, truthyO, hp, herr]

theorem c8_exception_caught_witness :
    categorize_changes (deepDiffV prevRaisingDoc "root" curRaisingDoc)
      prevRaisingDoc curRaisingDoc = .error .typeError ∧
    detect_changes (some curRaisingDoc) (some prevRaisingDoc) = none :=
  ⟨by decide,
   c8_exception_caught curRaisingDoc prevRaisingDoc .typeError
     (by decide) (by decide) (by decide)⟩

/-- C9: in one run of the check cycle the stored snapshots are left
unchanged when the fetch produced nothing, when the notifier reports a
failed delivery, or when no changes are detected; they are replaced —
the fetched document becoming the stored current snapshot — exactly when
a change report was produced and the notifier confirmed delivery. -/
theorem c9_persist_only_after_delivery (st : StoredSpecs) (fetched : Option Value)
    (sent : Bool) :
    (fetched = none → check_for_changes st fetched sent = st) ∧
    (sent = false → check_for_changes st fetched sent = st) ∧
    (∀ v, fetched = some v → detect_changes (some v) st.current = none →
      check_for_changes st fetched sent = st) ∧
    (∀ v r, fetched = some v → detect_changes (some v) st.current = some r →
      sent = true →
      check_for_changes st fetched sent = (update_stored_specs st (some v)).1 ∧
      (check_for_changes st fetched sent).current = some v) := by
  refine ⟨?_, ?_, ?_, ?_⟩
  · intro h
    rw [h]
    rfl
  · intro h
    cases fetched with
    | none => rfl
    | some v =>
      by_cases htv : truthyV v = true
      · simp [check_for_changes, htv, h]
        cases detect_changes (some v) st.current <;> simp
      · simp only [Bool.not_eq_true] at htv
        simp [check_for_changes, htv]
  · intro v hv hnone
    subst hv
    by_cases htv : truthyV v = true
    · simp [check_for_changes, htv, hnone]
    · simp only [Bool.not_eq_true] at htv
      simp [check_for_changes, htv]
  · intro v r hv hsome hsent
    subst hv
    subst hsent
    have htv : truthyV v = true := by
      by_contra hcon
      simp only [Bool.not_eq_true] at hcon
      rw [show detect_changes (some v) st.current = none from by
        simp [detect_changes, hcon]] at hsome
      cases hsome
    constructor
    · simp [check_for_changes, htv, hsome]
    · simp [check_for_changes, htv, hsome, update_stored_specs]

theorem c9_persist_only_after_delivery_witness :
    check_for_changes { current := some prevRemovalDoc, previous := none }
      (some curRemovalDoc) false = { current := some prevRemovalDoc, previous := none } ∧
    (check_for_changes { current := some prevRemovalDoc, previous := none }
      (some curRemovalDoc) true).current = some curRemovalDoc :=
  ⟨(c9_persist_only_after_delivery _ _ false).2.1 rfl,
   ((c9_persist_only_after_delivery _ _ true).2.2.2 curRemovalDoc
     { removed := { paths := ["/users"], operations := ["POST /users"] } }
     rfl (by decide) rfl).2⟩

/-- C1 (code bug): on the endpoint-removal scenario the report does carry
the removed operation — a breaking change under the specified predicate —
yet the breaking verdict the caller consumes
(`diff_result.get('has_breaking_changes')`, src/main.py line 49) is falsy
for every report, because `detect_changes` returns a dict with only the
keys `added`/`changed`/`removed` and never sets `has_breaking_changes`;
the repository's own tests (src/test_diff_detector.py, src/comprehensive_test.py)
expect that key in the result. -/
theorem c1_breaking_flag_never_true :
    detect_changes (some curRemovalDoc) (some prevRemovalDoc) =
      some { removed := { paths := ["/users"], operations := ["POST /users"] } } ∧
    has_breaking_changes_flag
      { removed := { paths := ["/users"], operations := ["POST /users"] } } = false ∧
    (∀ r : Changes, has_breaking_changes_flag r = false) :=
  ⟨by decide, rfl, fun _ => rfl⟩

/-- C2 (code bug): on the specification's own required-parameter-flip
scenario the report carries no `required_parameters` entry at all — the
extraction helper can never succeed (`extract_parameter_info_eq_none`) —
and instead the flipped parameter's path key lands in `changed.paths`.
In general `_process_parameter_changes` returns nothing on any input. -/
theorem c2_required_flip_never_recorded :
    detect_changes (some curFlipDoc) (some prevFlipDoc) =
      some { changed := { paths := ["/users"] } } ∧
    (∀ diff cur, process_parameter_changes diff cur = ([], [])) :=
  ⟨by decide, process_parameter_changes_eq_nil⟩

theorem truthyStrO_eq_true_iff : ∀ (o : Option String),
    truthyStrO o = true ↔ ∃ s, o = some s ∧ s ≠ ""
  | none => by simp [truthyStrO]
  | some s => by simp [truthyStrO]

theorem contains_eq_true_iff_mem (l : List String) (a : String) :
    l.contains a = true ↔ a ∈ l := List.elem_iff

theorem process_op_added_inv : ∀ (prev : Value) (items : List String) (st st' : OpState),
    process_op_added prev items st = .ok st' →
    (∀ op, op ∈ st'.changed_operations → op ∈ st.changed_operations ∨
      ∃ p₀ m₀ item, item ∈ items ∧ op = pyUpper m₀ ++ " " ++ p₀ ∧ p₀ ≠ "" ∧ m₀ ≠ "" ∧
        (extract_operation_info item).1 = some p₀ ∧
        (extract_operation_info item).2 = some m₀) ∧
    (∀ q, q ∈ st'.processed_paths → q ∈ st.processed_paths ∨
      ∃ item, item ∈ items ∧ (extract_operation_info item).1 = some q ∧ q ≠ "" ∧
        truthyStrO (extract_operation_info item).2 = true)
  | prev, [], st, st', h => by
    cases h
    exact ⟨fun op hop => Or.inl hop, fun q hq => Or.inl hq⟩
  | prev, item :: rest, st, st', h => by
    simp only [process_op_added] at h
    split at h
    next c1 =>
      rw [Bool.and_eq_true] at c1
      obtain ⟨p₀, hp₀, hp₀ne⟩ := (truthyStrO_eq_true_iff _).mp c1.1
      obtain ⟨m₀, hm₀, hm₀ne⟩ := (truthyStrO_eq_true_iff _).mp c1.2
      rw [hp₀, hm₀] at h
      simp only [Option.getD_some] at h
      split at h
      next e heq => cases h
      next prevPaths heq =>
        split at h
        next e heq2 => cases h
        next isIn heq2 =>
          split at h
          next hnotin =>
            obtain ⟨ih1, ih2⟩ := process_op_added_inv prev rest _ st' h
            refine ⟨fun op hop => ?_, fun q hq => ?_⟩
            · rcases ih1 op hop with h0 | ⟨q₀, n₀, it, hit, hrest⟩
              · exact Or.inl h0
              · exact Or.inr ⟨q₀, n₀, it, List.mem_cons_of_mem _ hit, hrest⟩
            · rcases ih2 q hq with h0 | ⟨it, hit, hrest⟩
              · have h0b : q ∈ st.processed_paths ++ [p₀] := h0
                rcases List.mem_append.mp h0b with ha | hb
                · exact Or.inl ha
                · obtain rfl := List.mem_singleton.mp hb
                  exact Or.inr ⟨item, List.mem_cons_self _ _, hp₀, hp₀ne,
                    by rw [hm₀]; simp [truthyStrO, hm₀ne]⟩
              · exact Or.inr ⟨it, List.mem_cons_of_mem _ hit, hrest⟩
          next hnotin =>
            obtain ⟨ih1, ih2⟩ := process_op_added_inv prev rest _ st' h
            refine ⟨fun op hop => ?_, fun q hq => ?_⟩
            · rcases ih1 op hop with h0 | ⟨q₀, n₀, it, hit, hrest⟩
              · have h0b : op ∈ st.changed_operations ++ [pyUpper m₀ ++ " " ++ p₀] := h0
                rcases List.mem_append.mp h0b with ha | hb
                · exact Or.inl ha
                · exact Or.inr ⟨p₀, m₀, item, List.mem_cons_self _ _,
                    List.mem_singleton.mp hb, hp₀ne, hm₀ne, hp₀, hm₀⟩
              · exact Or.inr ⟨q₀, n₀, it, List.mem_cons_of_mem _ hit, hrest⟩
            · rcases ih2 q hq with h0 | ⟨it, hit, hrest⟩
              · have h0b : q ∈ st.processed_paths ++ [p₀] := h0
                rcases List.mem_append.mp h0b with ha | hb
                · exact Or.inl ha
                · obtain rfl := List.mem_singleton.mp hb
                  exact Or.inr ⟨item, List.mem_cons_self _ _, hp₀, hp₀ne,
                    by rw [hm₀]; simp [truthyStrO, hm₀ne]⟩
              · exact Or.inr ⟨it, List.mem_cons_of_mem _ hit, hrest⟩
    next c1 =>
      obtain ⟨ih1, ih2⟩ := process_op_added_inv prev rest st st' h
      refine ⟨fun op hop => ?_, fun q hq => ?_⟩
      · rcases ih1 op hop with h0 | ⟨q₀, n₀, it, hit, hrest⟩
        · exact Or.inl h0
        · exact Or.inr ⟨q₀, n₀, it, List.mem_cons_of_mem _ hit, hrest⟩
      · rcases ih2 q hq with h0 | ⟨it, hit, hrest⟩
        · exact Or.inl h0
        · exact Or.inr ⟨it, List.mem_cons_of_mem _ hit, hrest⟩

theorem process_op_changed_inv : ∀ (keys : List String) (st : OpState) (op : String),
    op ∈ (process_op_changed keys st).changed_operations →
    op ∈ st.changed_operations ∨
    ∃ p₀ m₀, op = pyUpper m₀ ++ " " ++ p₀ ∧ p₀ ∈ st.processed_paths ∧
      p₀ ≠ "" ∧ m₀ ≠ ""
  | [], st, op, h => Or.inl h
  | key :: rest, st, op, h => by
    simp only [process_op_changed] at h
    split at h
    next c1 =>
      rw [Bool.and_eq_true] at c1
      obtain ⟨p₀, hp₀, hp₀ne⟩ := (truthyStrO_eq_true_iff _).mp c1.1
      obtain ⟨m₀, hm₀, hm₀ne⟩ := (truthyStrO_eq_true_iff _).mp c1.2
      rw [hp₀, hm₀] at h
      simp only [Option.getD_some] at h
      split at h
      next c2 =>
        rw [Bool.and_eq_true] at c2
        rcases process_op_changed_inv rest _ op h with h0 | ⟨q₀, n₀, heq, hqmem, hqne, hnne⟩
        · have h0b : op ∈ st.changed_operations ++ [pyUpper m₀ ++ " " ++ p₀] := h0
          rcases List.mem_append.mp h0b with ha | hb
          · exact Or.inl ha
          · have hpin : p₀ ∈ st.processed_paths := (contains_eq_true_iff_mem _ _).mp c2.2
            exact Or.inr ⟨p₀, m₀, List.mem_singleton.mp hb, hpin, hp₀ne, hm₀ne⟩
        · exact Or.inr ⟨q₀, n₀, heq, hqmem, hqne, hnne⟩
      next c2 =>
        exact process_op_changed_inv rest st op h
    next c1 =>
      exact process_op_changed_inv rest st op h

theorem process_op_changed_nodup : ∀ (keys : List String) (st : OpState),
    st.changed_operations.Nodup → (process_op_changed keys st).changed_operations.Nodup
  | [], _, h => h
  | key :: rest, st, h => by
    simp only [process_op_changed]
    split
    next c1 =>
      split
      next c2 =>
        apply process_op_changed_nodup rest
        rw [Bool.and_eq_true] at c2
        have hnot : pyUpper ((extract_operation_info key).2.getD "") ++ " " ++
            (extract_operation_info key).1.getD "" ∉ st.changed_operations := by
          intro hm
          have hc := (contains_eq_true_iff_mem st.changed_operations _).mpr hm
          rw [hc] at c2
          simp at c2
        show (st.changed_operations ++
          [pyUpper ((extract_operation_info key).2.getD "") ++ " " ++
            (extract_operation_info key).1.getD ""]).Nodup
        rw [List.nodup_append]
        exact ⟨h, List.nodup_singleton _,
          fun a ha hb => hnot (List.mem_singleton.mp hb ▸ ha)⟩
      next c2 =>
        exact process_op_changed_nodup rest st h
    next c1 =>
      exact process_op_changed_nodup rest st h

theorem categorize_changes_ok_inv (diff : DiffSet) (p c : Value) (ch : Changes)
    (h : categorize_changes diff p c = .ok ch) :
    ∃ st0, process_op_added p diff.dictionary_item_added {} = .ok st0 ∧
      ch.changed.operations =
        (process_op_changed (diff.values_changed.map (fun kv => kv.1))
          st0).changed_operations := by
  cases hadd : process_op_added p diff.dictionary_item_added {} with
  | error e => simp [categorize_changes, hadd] at h
  | ok st0 =>
    refine ⟨st0, rfl, ?_⟩
    simp only [categorize_changes, hadd] at h
    obtain rfl := Except.ok.inj h
    rfl

/-- C4 counterexample: a single field-level value change under the
existing operation `GET /users` yields a report whose
`changed.operations` is empty — the claimed single `"{METHOD} {pathKey}"`
entry is absent (the path merely lands in `changed.paths`). -/
theorem c4_counterexample :
    detect_changes (some curSummaryChangedDoc) (some prevSummaryDoc) =
      some { changed := { paths := ["/users"] } } ∧
    "GET /users" ∉ ({ changed := { paths := ["/users"] } } : Changes).changed.operations :=
  ⟨by decide, by decide⟩

/-- C4 (amended): (1) necessity — in every successful categorization,
every entry of `changed.operations` is of the form `"{METHOD} {path}"`
and its path is witnessed by a dictionary addition of the same diff that
parses to that very path with a truthy method: the category is fed only
through `processed_paths`, which only the `dictionary_item_added` loop
fills (so with no added item parsing to a path anywhere in the diff the
category stays empty, as the concrete conjunct (3) shows); (2) the
`values_changed` loop never introduces a duplicate into
`changed.operations`; (3) a pure value change under the existing
operation `GET /users` yields an empty `changed.operations`; (4) the same
change with a concurrent key addition under that path yields exactly the
single deduplicated entry `"GET /users"`. -/
theorem c4_amended :
    (∀ (diff : DiffSet) (p c : Value) (ch : Changes),
      categorize_changes diff p c = .ok ch →
      ∀ op, op ∈ ch.changed.operations →
        ∃ p₀ m₀, op = pyUpper m₀ ++ " " ++ p₀ ∧ p₀ ≠ "" ∧ m₀ ≠ "" ∧
          ∃ item, item ∈ diff.dictionary_item_added ∧
            (extract_operation_info item).1 = some p₀ ∧
            truthyStrO (extract_operation_info item).2 = true) ∧
    (∀ (keys : List String) (st : OpState), st.changed_operations.Nodup →
      (process_op_changed keys st).changed_operations.Nodup) ∧
    detect_changes (some curSummaryChangedDoc) (some prevSummaryDoc) =
      some { changed := { paths := ["/users"] } } ∧
    detect_changes (some curSummaryTagsDoc) (some prevSummaryDoc) =
      some { added := { paths := ["/users"] }
             changed := { paths := ["/users"], operations := ["GET /users"] } } := by
  refine ⟨?_, process_op_changed_nodup, by decide, by decide⟩
  intro diff p c ch hok op hop
  obtain ⟨st0, hadd, hops⟩ := categorize_changes_ok_inv diff p c ch hok
  rw [hops] at hop
  rcases process_op_changed_inv _ _ _ hop with hin | ⟨p₀, m₀, heq, hpmem, hpne, hmne⟩
  · rcases (process_op_added_inv p _ {} st0 hadd).1 op hin with h0 |
      ⟨p₀, m₀, item, hitem, heq, hpne, hmne, h1, h2⟩
    · simp at h0
    · exact ⟨p₀, m₀, heq, hpne, hmne, item, hitem, h1,
        by rw [h2]; simp [truthyStrO, hmne]⟩
  · rcases (process_op_added_inv p _ {} st0 hadd).2 p₀ hpmem with h0 |
      ⟨item, hitem, h1, hp0ne, h2⟩
    · simp at h0
    · exact ⟨p₀, m₀, heq, hpne, hmne, item, hitem, h1, h2⟩

/-- C4 amended witness: the necessity statement applied to the concrete
summary-plus-tags diff — the entry `"GET /users"` of `changed.operations`
is traced to the added `tags` item under `/users` — and the dedup
statement applied to a concrete state. -/
theorem c4_amended_witness :
    (∃ p₀ m₀, "GET /users" = pyUpper m₀ ++ " " ++ p₀ ∧ p₀ ≠ "" ∧ m₀ ≠ "" ∧
      ∃ item, item ∈ (deepDiffV prevSummaryDoc "root"
          curSummaryTagsDoc).dictionary_item_added ∧
        (extract_operation_info item).1 = some p₀ ∧
        truthyStrO (extract_operation_info item).2 = true) ∧
    (process_op_changed ["k"]
      { changed_operations := ["a"] }).changed_operations.Nodup :=
  ⟨c4_amended.1 (deepDiffV prevSummaryDoc "root" curSummaryTagsDoc)
      prevSummaryDoc curSummaryTagsDoc
      { added := { paths := ["/users"] }
        changed := { paths := ["/users"], operations := ["GET /users"] } }
      (by decide) "GET /users" (by decide),
   c4_amended.2.1 ["k"] { changed_operations := ["a"] } (by decide)⟩

/-- C5 counterexample: two keys added under the one existing operation
produce the entry `"/users"` twice in `added.paths` and `"GET /users"`
twice in `changed.operations` — report categories are not
duplicate-free. -/
theorem c5_counterexample :
    detect_changes (some curTwoKeysDoc) (some prevBareGetDoc) =
      some { added := { paths := ["/users", "/users"] }
             changed := { operations := ["GET /users", "GET /users"] } } ∧
    ¬ (["/users", "/users"] : List String).Nodup :=
  ⟨by decide, by decide⟩

/-- C5 (amended): only the two set-converted categories
(`changed.request_formats` and `changed.response_formats`) are guaranteed
duplicate-free in every produced report; other categories, such as
`added.paths` and `changed.operations`, can hold the same entry twice. -/
theorem c5_amended :
    (∀ diff p c ch, categorize_changes diff p c = .ok ch →
      ch.changed.request_formats.Nodup ∧ ch.changed.response_formats.Nodup) ∧
    detect_changes (some curTwoKeysDoc) (some prevBareGetDoc) =
      some { added := { paths := ["/users", "/users"] }
             changed := { operations := ["GET /users", "GET /users"] } } := by
  constructor
  · intro diff p c ch hok
    have hfmt := process_request_response_changes_eq_nil diff
    have hch : ch.changed.request_formats = [] ∧ ch.changed.response_formats = [] := by
      simp only [categorize_changes] at hok
      cases hop : process_op_added p diff.dictionary_item_added {} with
      | error e => rw [hop] at hok; cases hok
      | ok st0 =>
        rw [hop] at hok
        simp only [Except.ok.injEq] at hok
        subst hok
        simp [hfmt]
    exact ⟨hch.1 ▸ List.nodup_nil, hch.2 ▸ List.nodup_nil⟩
  · decide

theorem c5_amended_witness :
    ({} : Changes).changed.request_formats.Nodup :=
  (c5_amended.1 {} (.dict []) (.dict []) {} rfl).1

theorem detect_changes_via_diff (cur prev : Value) (d : DiffSet)
    (hc : truthyV cur = true) (hp : truthyV prev = true)
    (hd : deepDiffV prev "root" cur = d) :
    detect_changes (some cur) (some prev) =
      (match categorize_changes d prev cur with
       | .error _ => none
       | .ok ch => if anyChanges ch then some ch else none) := by
  simp [detect_changes, hc, truthyO, hp, hd]

/-- C3 counterexample: adding the brand-new path `/products` (one `get`
operation) puts the path into `added.paths` but produces NO entry in
`added.operations` — the claimed `"GET /products"` is absent, because
the diff reports only the top-most added key
`root['paths']['/products']`, whose rendered form has no method
fragment. -/
theorem c3_counterexample :
    detect_changes (some (curPathAddedDoc opG opG)) (some (prevUsersDoc opG)) =
      some { added := { paths := ["/products"] } } ∧
    "GET /products" ∉
      ({ added := { paths := ["/products"] } } : Changes).added.operations :=
  ⟨by decide, by decide⟩

/-- C3 (amended): adding a new HTTP method to an existing path does put
`"{METHOD} {path}"` into `changed.operations`, but the path ALSO lands in
`added.paths` (the path extractor accepts operation-deep keys); adding a
brand-new path puts the path into `added.paths` but produces no
`added.operations` entry. Stated over an arbitrary well-formed object for
the untouched operation and arbitrary objects for the added method and
the new path's operation. -/
theorem c3_amended (x y z : Value) (hx : wfV x = true) :
    detect_changes (some (curMethodAddedDoc x y)) (some (prevUsersDoc x)) =
      some { added := { paths := ["/users"] }
             changed := { operations := ["POST /users"] } } ∧
    detect_changes (some (curPathAddedDoc x z)) (some (prevUsersDoc x)) =
      some { added := { paths := ["/products"] } } := by
  constructor
  · have hdiff : deepDiffV (prevUsersDoc x) "root" (curMethodAddedDoc x y) =
        { dictionary_item_added :=
            ["root[\x27paths\x27][\x27/users\x27][\x27post\x27]"] } := by
      simp [prevUsersDoc, curMethodAddedDoc, deepDiffV, diffEntries, lookupEntry,
        renderKey, DiffSet.append, diff_self, hx]
    rw [detect_changes_via_diff _ _ _ (by rfl) (by rfl) hdiff]
    rfl
  · have hdiff : deepDiffV (prevUsersDoc x) "root" (curPathAddedDoc x z) =
        { dictionary_item_added := ["root[\x27paths\x27][\x27/products\x27]"] } := by
      simp [prevUsersDoc, curPathAddedDoc, deepDiffV, diffEntries, lookupEntry,
        renderKey, DiffSet.append, diff_self, hx]
    rw [detect_changes_via_diff _ _ _ (by rfl) (by rfl) hdiff]
    rfl

theorem c3_amended_witness :
    wfV opG = true ∧
    detect_changes (some (curMethodAddedDoc opG opP)) (some (prevUsersDoc opG)) =
      some { added := { paths := ["/users"] }
             changed := { operations := ["POST /users"] } } :=
  ⟨by decide, (c3_amended opG opP opG (by decide)).1⟩
